import Mathlib

set_option linter.unusedVariables false

/-!
Verification of the constraint-propagation engine (`propagators.py`) of the
AI-CSP repository.

The engine's collaborators (the `Variable`, `Constraint` and `CSP` classes of
`cspbase`) are not part of the core sources; they are modelled here from the
specification (sections 3, 4.3 and 6 of `spec.md`).  The three propagation
strategies `prop_BT`, `prop_FC` and `prop_GAC` are translated directly from
`propagators.py`.
-/

/-- Modelled from the spec: the per-variable state of `cspbase.Variable` —
a full static domain in which every value carries an "active" flag (pruning
clears the flag, restoring sets it back; this realises the spec's "value
removal with later exact restoration"), plus an assignment slot that is
either empty or holds one value. -/
structure VarState where
  dom : List (Int × Bool)
  assigned : Option Int
deriving DecidableEq, Inhabited

/-- A CSP state maps variable ids (list positions) to their `VarState`. -/
abbrev State := List VarState

def getVar (st : State) (v : Nat) : VarState := st.getD v ⟨[], none⟩

def setVar (st : State) (v : Nat) (s : VarState) : State := st.set v s

/-- Modelled from the spec: the values of the full domain whose active flag
is still set. -/
def VarState.curDomList (s : VarState) : List Int :=
  (s.dom.filter (fun p => p.2)).map (fun p => p.1)

/-- Modelled from the spec: `Variable.cur_domain()` — the current-domain view.
If the variable is assigned, only the assigned value is viewed as being in the
current domain (this is what makes the spec's section 8 scenarios prune after
an assignment); otherwise the view is the list of still-active values. -/
def VarState.curDom (s : VarState) : List Int :=
  match s.assigned with
  | some a => [a]
  | none => s.curDomList

/-- Modelled from the spec: `cur_domain()` of variable `v` in state `st`. -/
def curDomain (st : State) (v : Nat) : List Int := (getVar st v).curDom

/-- Modelled from the spec: `Variable.cur_domain_size()`. -/
def curDomainSize (st : State) (v : Nat) : Nat := (curDomain st v).length

/-- Modelled from the spec: `Variable.get_assigned_value()` (`none` when the
variable is unassigned). -/
def getAssignedValue (st : State) (v : Nat) : Option Int := (getVar st v).assigned

/-- Modelled from the spec: `Variable.assign(d)` — fills the assignment slot;
it does not itself alter domain membership. -/
def assignVar (st : State) (v : Nat) (d : Int) : State :=
  setVar st v ⟨(getVar st v).dom, some d⟩

/-- Modelled from the spec: `Variable.unassign()`. -/
def unassignVar (st : State) (v : Nat) : State :=
  setVar st v ⟨(getVar st v).dom, none⟩

/-- Clear the active flag of value `d` in a flagged domain. -/
def pruneDom (dom : List (Int × Bool)) (d : Int) : List (Int × Bool) :=
  dom.map (fun p => if p.1 = d then (p.1, false) else p)

/-- Set the active flag of value `d` in a flagged domain. -/
def restoreDom (dom : List (Int × Bool)) (d : Int) : List (Int × Bool) :=
  dom.map (fun p => if p.1 = d then (p.1, true) else p)

/-- Modelled from the spec: `Variable.prune_value(d)` — removes `d` from the
current domain (clears its flag); a separate, explicit operation that does not
touch the assignment slot. -/
def pruneValue (st : State) (v : Nat) (d : Int) : State :=
  setVar st v ⟨pruneDom (getVar st v).dom d, (getVar st v).assigned⟩

/-- Modelled from the spec: the caller-side undo of one pruned value —
restoring the value to its variable's current domain. -/
def restoreValue (st : State) (v : Nat) (d : Int) : State :=
  setVar st v ⟨restoreDom (getVar st v).dom d, (getVar st v).assigned⟩

/-- Modelled from the spec: a constraint — a name, an ordered scope of
variable ids, and the set of satisfying tuples (i-th component legal for the
i-th scope variable). -/
structure Constraint where
  name : String
  scope : List Nat
  satTuples : List (List Int)
deriving DecidableEq, Inhabited

/-- Modelled from the spec: `Constraint.check(vals)` — true iff the tuple of
values (one per scope variable, possibly missing for unassigned variables)
is one of the satisfying tuples. -/
def Constraint.check (c : Constraint) (vals : List (Option Int)) : Bool :=
  c.satTuples.any (fun t => t.map some == vals)

/-- Modelled from the spec: `Constraint.get_n_unasgn()`. -/
def Constraint.nUnasgn (c : Constraint) (st : State) : Nat :=
  (c.scope.filter (fun v => (getAssignedValue st v).isNone)).length

/-- Modelled from the spec: `Constraint.get_unasgn_vars()`. -/
def Constraint.unasgnVars (c : Constraint) (st : State) : List Nat :=
  c.scope.filter (fun v => (getAssignedValue st v).isNone)

/-- Modelled from the spec (section 4.3): `Constraint.has_support(v, d)` —
fixing `v = d`, is there a satisfying tuple whose value at every other scope
position lies in that variable's current domain?  It is false whenever some
other scope variable has an empty current domain. -/
def Constraint.hasSupport (c : Constraint) (st : State) (v : Nat) (d : Int) : Bool :=
  c.satTuples.any (fun t =>
    (t.length == c.scope.length) &&
    (c.scope.zip t).all (fun p =>
      if p.1 == v then p.2 == d else (curDomain st p.1).contains p.2))

/-- Modelled from the spec: a CSP object; only its constraint collection is
needed by the propagators. -/
structure CSP where
  cons : List Constraint
deriving DecidableEq, Inhabited

/-- Modelled from the spec: `CSP.get_all_cons()`. -/
def getAllCons (csp : CSP) : List Constraint := csp.cons

/-- Modelled from the spec: `CSP.get_cons_with_var(v)` — the constraints whose
scope contains `v`. -/
def getConsWithVar (csp : CSP) (v : Nat) : List Constraint :=
  csp.cons.filter (fun c => c.scope.contains v)

/-- The loop of `prop_BT` (propagators.py:67-73): scan the constraints, and on
each fully assigned one evaluate it on the tuple of assigned values; a violated
one means `False`. -/
def bt_loop (st : State) : List Constraint → Bool
  | [] => true
  | c :: rest =>
    if c.nUnasgn st = 0 then
      if c.check (c.scope.map (getAssignedValue st)) then bt_loop st rest else false
    else bt_loop st rest

/-- `prop_BT` (propagators.py:61-74): plain backtracking propagation — no
pruning, just check the fully instantiated constraints incident to `newVar`. -/
def prop_BT (csp : CSP) (newVar : Option Nat) (st : State) : Bool × List (Nat × Int) :=
  match newVar with
  | none => (true, [])
  | some v => (bt_loop st (getConsWithVar csp v), [])

/-- The value loop of `fc_check` (propagators.py:88-100): for each value `d` of
the snapshot of `X`'s current domain: assign `d` to `X`, build the tuple of
assigned values over `C`'s scope, and if `C` rejects it prune `d` and record
`(X, d)`; unassign `X` in either case. -/
def fc_check_loop (C : Constraint) (X : Nat) :
    List Int → State → List (Nat × Int) → State × List (Nat × Int)
  | [], st, pr => (st, pr)
  | d :: ds, st, pr =>
    if C.check (C.scope.map (getAssignedValue (assignVar st X d))) then
      fc_check_loop C X ds (unassignVar (assignVar st X d) X) pr
    else
      fc_check_loop C X ds (unassignVar (pruneValue (assignVar st X d) X d) X)
        (pr ++ [(X, d)])

/-- `fc_check` (propagators.py:86-104): run the value loop on the snapshot of
`X`'s current domain, then report `false` exactly on domain wipeout. -/
def fc_check (C : Constraint) (X : Nat) (st : State) (pr : List (Nat × Int)) :
    Bool × State × List (Nat × Int) :=
  match fc_check_loop C X (curDomain st X) st pr with
  | (st1, pr1) => (!(curDomainSize st1 X == 0), st1, pr1)

/-- The constraint loop of `prop_FC` (propagators.py:112-117): forward-check
each constraint that has exactly one unassigned variable; stop at the first
wipeout. -/
def prop_FC_loop (csp : CSP) :
    List Constraint → State → List (Nat × Int) → Bool × State × List (Nat × Int)
  | [], st, pr => (true, st, pr)
  | c :: rest, st, pr =>
    if c.nUnasgn st = 1 then
      match fc_check c ((c.unasgnVars st).headD 0) st pr with
      | (ok, st1, pr1) =>
        if ok then prop_FC_loop csp rest st1 pr1 else (false, st1, pr1)
    else prop_FC_loop csp rest st pr

/-- `prop_FC` (propagators.py:77-117): forward checking over all constraints
(`newVar` unset) or over the constraints incident to `newVar`. -/
def prop_FC (csp : CSP) (newVar : Option Nat) (st : State) :
    Bool × State × List (Nat × Int) :=
  match newVar with
  | none => prop_FC_loop csp (getAllCons csp) st []
  | some v => prop_FC_loop csp (getConsWithVar csp v) st []

/-- The re-enqueue step of `gac_enforce` (propagators.py:150-152): push every
constraint incident to `v` that is not already in the queue to the front. -/
def gac_reenqueue (csp : CSP) (v : Nat) (q : List Constraint) : List Constraint :=
  (getConsWithVar csp v).foldl (fun acc r => if r ∈ acc then acc else r :: acc) q

/-- The value loop of `gac_enforce` (propagators.py:140-152) generic in the
re-enqueue policy `R` (the source inserts at the front; the spec leaves the
policy open): for each `d` of the snapshot of `v`'s current domain, prune and
record an unsupported `d`; on domain wipeout clear the queue and fail,
otherwise re-enqueue the constraints incident to `v`. -/
def gacd (csp : CSP) (R : Nat → List Constraint → List Constraint)
    (con : Constraint) (v : Nat) :
    List Int → State → List (Nat × Int) → List Constraint →
    Bool × State × List (Nat × Int) × List Constraint
  | [], st, pr, q => (true, st, pr, q)
  | d :: ds, st, pr, q =>
    if con.hasSupport st v d then gacd csp R con v ds st pr q
    else
      if curDomainSize (pruneValue st v d) v = 0 then
        (false, pruneValue st v d, pr ++ [(v, d)], [])
      else
        gacd csp R con v ds (pruneValue st v d) (pr ++ [(v, d)]) (R v q)

/-- The scope loop of `gac_enforce` (propagators.py:138-152), generic in the
re-enqueue policy: process each scope variable of the popped constraint on the
snapshot of its current domain, stopping on wipeout. -/
def gacs (csp : CSP) (R : Nat → List Constraint → List Constraint)
    (con : Constraint) :
    List Nat → State → List (Nat × Int) → List Constraint →
    Bool × State × List (Nat × Int) × List Constraint
  | [], st, pr, q => (true, st, pr, q)
  | v :: vs, st, pr, q =>
    match gacd csp R con v (curDomain st v) st pr q with
    | (ok, st1, pr1, q1) =>
      if ok then gacs csp R con vs st1 pr1 q1 else (ok, st1, pr1, q1)

/-- The while loop of `gac_enforce` (propagators.py:136-153), generic in the
re-enqueue policy and fuelled (the source loop can diverge): pop the front
constraint and process its scope; `none` means the fuel ran out. -/
def gace (csp : CSP) (R : Nat → List Constraint → List Constraint) :
    Nat → List Constraint → State → List (Nat × Int) →
    Option (Bool × State × List (Nat × Int))
  | _, [], st, pr => some (true, st, pr)
  | 0, _ :: _, _, _ => none
  | fuel + 1, con :: q, st, pr =>
    match gacs csp R con con.scope st pr q with
    | (ok, st1, pr1, q1) =>
      if ok then gace csp R fuel q1 st1 pr1 else some (false, st1, pr1)

/-- The initial GAC queue (propagators.py:128-131): all constraints when
`newVar` is unset, else the constraints incident to `newVar`. -/
def gacInitQueue (csp : CSP) (newVar : Option Nat) : List Constraint :=
  match newVar with
  | none => getAllCons csp
  | some v => getConsWithVar csp v

/-- `prop_GAC` (propagators.py:120-155): GAC propagation with the source's
front-insertion re-enqueue policy, fuelled. -/
def prop_GAC (csp : CSP) (newVar : Option Nat) (st : State) (fuel : Nat) :
    Option (Bool × State × List (Nat × Int)) :=
  gace csp (gac_reenqueue csp) fuel (gacInitQueue csp newVar) st []

/-- Modelled from the spec: the back-insertion re-enqueue variant that the
spec's section 4.3 leaves as the alternative implementation choice — append
the constraints incident to `v` that are not already queued at the back. -/
def gac_reenqueue_back (csp : CSP) (v : Nat) (q : List Constraint) : List Constraint :=
  (getConsWithVar csp v).foldl (fun acc r => if r ∈ acc then acc else acc ++ [r]) q

/-- Modelled from the spec: `prop_GAC` with the back-insertion re-enqueue
policy; everything else is identical to the implemented propagator. -/
def prop_GAC_back (csp : CSP) (newVar : Option Nat) (st : State) (fuel : Nat) :
    Option (Bool × State × List (Nat × Int)) :=
  gace csp (gac_reenqueue_back csp) fuel (gacInitQueue csp newVar) st []

/-- Modelled from the spec: the caller's undo of a pruning record — restore
each recorded value to its variable's current domain. -/
def restoreValues (st : State) (pr : List (Nat × Int)) : State :=
  pr.foldl (fun s p => restoreValue s p.1 p.2) st

/-- Arc consistency of one constraint in a state: every value of every scope
variable's current domain has support. -/
def gacConsistent (st : State) (c : Constraint) : Prop :=
  ∀ v ∈ c.scope, ∀ d ∈ curDomain st v, c.hasSupport st v d = true

instance (st : State) (c : Constraint) : Decidable (gacConsistent st c) := by
  unfold gacConsistent; infer_instance

/-- The pruning condition of `fc_check` (propagators.py:96): the scope tuple in
which `X` carries `d` and every other scope variable carries its assigned value
fails the constraint's check. -/
def fcViolates (C : Constraint) (X : Nat) (st : State) (d : Int) : Bool :=
  !(C.check (C.scope.map (fun w => if w = X then some d else getAssignedValue st w)))

/-- The state that one `fc_check` call leaves behind: the violating snapshot
values pruned from `X`, in order. -/
def fcPruned (C : Constraint) (X : Nat) (st : State) : State :=
  ((curDomain st X).filter (fcViolates C X st)).foldl (fun s d => pruneValue s X d) st

/-- The pairs that one `fc_check` call appends to the pruning record. -/
def fcRecord (C : Constraint) (X : Nat) (st : State) : List (Nat × Int) :=
  ((curDomain st X).filter (fcViolates C X st)).map (fun d => (X, d))


/-! ### Well-formed states -/

/-- Modelled from the spec: the data-model invariant on one variable — domain
values are pairwise distinct (the domain is a set), and an assigned value is a
member of the current domain (its flag is set). -/
def VarState.assignedOK (s : VarState) : Prop :=
  match s.assigned with
  | none => True
  | some a => (a, true) ∈ s.dom

instance (s : VarState) : Decidable s.assignedOK := by
  unfold VarState.assignedOK
  cases s.assigned
  · exact inferInstanceAs (Decidable True)
  · exact inferInstanceAs (Decidable (_ ∈ _))

/-- Modelled from the spec: well-formedness of a whole state. -/
def StateWF (st : State) : Prop :=
  ∀ s ∈ st, (s.dom.map Prod.fst).Nodup ∧ s.assignedOK

instance (st : State) : Decidable (StateWF st) := by
  unfold StateWF; infer_instance

/-- Every scope variable of every constraint is a real variable of the state. -/
def ScopeBound (csp : CSP) (st : State) : Prop :=
  ∀ c ∈ csp.cons, ∀ v ∈ c.scope, v < st.length

instance (csp : CSP) (st : State) : Decidable (ScopeBound csp st) := by
  unfold ScopeBound; infer_instance



/-- The exact frame of a propagation call: `st` differs from `st0` precisely by
clearing the active flags of the recorded pairs, every recorded pair's flag was
set in `st0`, and the assignment slots agree. -/
def PruneDelta (st0 st : State) (R : List (Nat × Int)) : Prop :=
  st.length = st0.length ∧
  (∀ v, (getVar st v).assigned = (getVar st0 v).assigned) ∧
  (∀ v, (getVar st v).dom =
    (getVar st0 v).dom.map (fun p => if (v, p.1) ∈ R then (p.1, false) else p)) ∧
  (∀ v d, (v, d) ∈ R → ∀ p ∈ (getVar st0 v).dom, p.1 = d → p.2 = true)

/-- A constraint was "touched" between `st0` and `st`: some scope variable lost
a current-domain value. -/
def gacTouched (st0 st : State) (c : Constraint) : Prop :=
  ∃ w ∈ c.scope, ∃ e, e ∈ curDomain st0 w ∧ e ∉ curDomain st w

/-- What a terminated true GAC run starting from `st0` with initial worklist
`seed` guarantees for one constraint: either the constraint is arc consistent
in the final state, or it was never in the worklist and the current domains of
its scope are untouched. -/
def gacFinalFact (seed : List Constraint) (st0 stA : State) (c : Constraint) : Prop :=
  gacConsistent stA c ∨ (c ∉ seed ∧ ∀ w ∈ c.scope, curDomain stA w = curDomain st0 w)

/-! ### Concrete instances used by the witnesses -/

/-- The satisfying tuples of a ternary all-different constraint on `{1,2,3}`. -/
def adTuples : List (List Int) :=
  [[1,2,3],[1,3,2],[2,1,3],[2,3,1],[3,1,2],[3,2,1]]

def adCon : Constraint := ⟨"ad", [0,1,2], adTuples⟩

def adCSP : CSP := ⟨[adCon]⟩

def adDom : List (Int × Bool) := [(1,true),(2,true),(3,true)]

/-- Three variables with domain `{1,2,3}`; the first has just been assigned 1. -/
def adState : State := [⟨adDom, some 1⟩, ⟨adDom, none⟩, ⟨adDom, none⟩]

/-- The state `prop_GAC adCSP (some 0) adState` terminates in: value 1 pruned
from the second and third variable. -/
def adFinal : State :=
  [⟨adDom, some 1⟩, ⟨[(1,false),(2,true),(3,true)], none⟩,
   ⟨[(1,false),(2,true),(3,true)], none⟩]

/-- The satisfying tuples of a binary not-equal constraint on `{1,2}`. -/
def neTuples : List (List Int) := [[1,2],[2,1]]

def neCon : Constraint := ⟨"ne", [0,1], neTuples⟩

def neCSP : CSP := ⟨[neCon]⟩

def neDom : List (Int × Bool) := [(1,true),(2,true)]

/-- Two variables with domain `{1,2}`; the first has just been assigned 1. -/
def neState : State := [⟨neDom, some 1⟩, ⟨neDom, none⟩]

def zCon : Constraint := ⟨"zne", [0,1], neTuples⟩

def zCSP : CSP := ⟨[zCon]⟩

/-- Two variables with domain `{1}`; the first has just been assigned 1 —
forward checking must wipe out the second variable's domain. -/
def zState : State := [⟨[(1,true)], some 1⟩, ⟨[(1,true)], none⟩]

/-- A fully assigned violated binary constraint on variables 0 and 1 (the
satisfying tuples exclude `(1,1)`). -/
def bugConA : Constraint := ⟨"bugA", [0,1], [[1,2],[2,1],[2,2]]⟩

/-- A binary constraint on variables 0 and 2 that forces variable 0 to be 2. -/
def bugConB : Constraint := ⟨"bugB", [0,2], [[2,1],[2,2]]⟩

def bugCSP : CSP := ⟨[bugConA, bugConB]⟩

/-- Variables 0 and 1 are assigned 1 (jointly violating `bugConA`), variable 2
is unassigned with domain `{1,2}`. -/
def bugState : State :=
  [⟨neDom, some 1⟩, ⟨[(1,true)], some 1⟩, ⟨neDom, none⟩]


/-- The state the forward-checking wipeout scenario terminates in. -/
def zFinal : State := [⟨[(1,true)], some 1⟩, ⟨[(1,false)], none⟩]

/-! ### State-access infrastructure -/

theorem length_setVar (st : State) (v : Nat) (s : VarState) :
    (setVar st v s).length = st.length := List.length_set st v s

theorem getVar_eq_getElem (st : State) (v : Nat) (h : v < st.length) :
    getVar st v = st[v] := by
  simp [getVar, List.getD_eq_getElem?_getD, List.getElem?_eq_getElem h]

theorem getVar_setVar_self (st : State) (v : Nat) (s : VarState) (h : v < st.length) :
    getVar (setVar st v s) v = s := by
  simp [getVar, setVar, List.getD_eq_getElem?_getD, List.getElem?_set_self', List.getElem?_eq_getElem h]

theorem getVar_setVar_ne (st : State) (v w : Nat) (s : VarState) (h : w ≠ v) :
    getVar (setVar st v s) w = getVar st w := by
  simp [getVar, setVar, List.getD_eq_getElem?_getD, List.getElem?_set_ne (Ne.symm h)]

theorem setVar_oob (st : State) (v : Nat) (s : VarState) (h : st.length ≤ v) :
    setVar st v s = st := List.set_eq_of_length_le h

theorem getVar_oob (st : State) (v : Nat) (h : st.length ≤ v) :
    getVar st v = ⟨[], none⟩ := by
  simp [getVar, List.getD_eq_getElem?_getD, List.getElem?_eq_none h]

theorem setVar_setVar (st : State) (v : Nat) (s s' : VarState) :
    setVar (setVar st v s) v s' = setVar st v s' := List.set_set s s' st v

theorem setVar_getVar (st : State) (v : Nat) : setVar st v (getVar st v) = st := by
  by_cases h : v < st.length
  · apply List.ext_getElem?
    intro i
    by_cases hi : i = v
    · rw [hi, setVar, List.getElem?_set_self', getVar_eq_getElem st v h,
        List.getElem?_eq_getElem h]
      simp
    · exact List.getElem?_set_ne (Ne.symm hi)
  · exact setVar_oob st v _ (Nat.le_of_not_lt h)

theorem state_ext (st st' : State) (hlen : st.length = st'.length)
    (h : ∀ v, getVar st v = getVar st' v) : st = st' := by
  apply List.ext_getElem?
  intro i
  by_cases hi : i < st.length
  · have hi' : i < st'.length := hlen ▸ hi
    rw [List.getElem?_eq_getElem hi, List.getElem?_eq_getElem hi']
    rw [← getVar_eq_getElem st i hi, ← getVar_eq_getElem st' i hi', h i]
  · rw [List.getElem?_eq_none (Nat.le_of_not_lt hi),
      List.getElem?_eq_none (Nat.le_of_not_lt (hlen ▸ hi))]

theorem assignedOK_some (s : VarState) (a : Int) (hok : s.assignedOK)
    (ha : s.assigned = some a) : (a, true) ∈ s.dom := by
  unfold VarState.assignedOK at hok
  rw [ha] at hok
  exact hok

theorem stateWF_getVar (st : State) (v : Nat) (h : StateWF st) :
    ((getVar st v).dom.map Prod.fst).Nodup ∧ (getVar st v).assignedOK := by
  by_cases hlen : v < st.length
  · exact h _ (by rw [getVar_eq_getElem st v hlen]; exact st.getElem_mem hlen)
  · rw [getVar_oob st v (Nat.le_of_not_lt hlen)]
    exact ⟨List.nodup_nil, trivial⟩

/-! ### Behaviour of the domain/assignment operations -/

theorem mem_curDomList (s : VarState) (d : Int) :
    d ∈ s.curDomList ↔ (d, true) ∈ s.dom := by
  simp only [VarState.curDomList, List.mem_map, List.mem_filter]
  constructor
  · rintro ⟨⟨x, b⟩, ⟨hm, hb⟩, rfl⟩
    simpa using (show b = true by simpa using hb) ▸ hm
  · intro h
    exact ⟨(d, true), ⟨h, rfl⟩, rfl⟩

theorem assigned_pruneValue (st : State) (v w : Nat) (d : Int) :
    getAssignedValue (pruneValue st v d) w = getAssignedValue st w := by
  by_cases hw : w = v
  · subst hw
    by_cases h : w < st.length
    · simp [getAssignedValue, pruneValue, getVar_setVar_self _ _ _ h]
    · rw [pruneValue, setVar_oob _ _ _ (Nat.le_of_not_lt h)]
  · simp [getAssignedValue, pruneValue, getVar_setVar_ne _ _ _ _ hw]

theorem curDomain_pruneValue_ne (st : State) (v w : Nat) (d : Int) (h : w ≠ v) :
    curDomain (pruneValue st v d) w = curDomain st w := by
  simp [curDomain, pruneValue, getVar_setVar_ne _ _ _ _ h]

theorem getVar_pruneValue_self (st : State) (v : Nat) (d : Int) (h : v < st.length) :
    getVar (pruneValue st v d) v = ⟨pruneDom (getVar st v).dom d, (getVar st v).assigned⟩ := by
  simp [pruneValue, getVar_setVar_self _ _ _ h]

theorem pruneValue_oob (st : State) (v : Nat) (d : Int) (h : st.length ≤ v) :
    pruneValue st v d = st := setVar_oob _ _ _ h

theorem length_pruneValue (st : State) (v : Nat) (d : Int) :
    (pruneValue st v d).length = st.length := length_setVar _ _ _

theorem curDomain_pruneValue_assigned (st : State) (v : Nat) (d a : Int)
    (h : getAssignedValue st v = some a) :
    curDomain (pruneValue st v d) v = curDomain st v := by
  by_cases hlen : v < st.length
  · simp [curDomain, getVar_pruneValue_self st v d hlen, VarState.curDom,
      getAssignedValue] at h ⊢
    rw [h]
  · rw [pruneValue_oob _ _ _ (Nat.le_of_not_lt hlen)]

theorem mem_pruneDom (dom : List (Int × Bool)) (d x : Int) (b : Bool) :
    (x, b) ∈ pruneDom dom d ↔
      (x = d ∧ b = false ∧ ∃ b', (x, b') ∈ dom) ∨ (x ≠ d ∧ (x, b) ∈ dom) := by
  simp only [pruneDom, List.mem_map]
  constructor
  · rintro ⟨⟨y, c⟩, hm, he⟩
    by_cases hy : y = d
    · subst hy
      rw [if_pos rfl] at he
      cases he
      exact Or.inl ⟨rfl, rfl, c, hm⟩
    · rw [if_neg hy] at he
      cases he
      exact Or.inr ⟨hy, hm⟩
  · rintro (⟨rfl, rfl, b', hm⟩ | ⟨hne, hm⟩)
    · exact ⟨(x, b'), hm, by simp⟩
    · exact ⟨(x, b), hm, by rw [if_neg hne]⟩

theorem curDomList_pruneDom (s : VarState) (d x : Int) :
    x ∈ (VarState.curDomList ⟨pruneDom s.dom d, s.assigned⟩) ↔
      x ∈ s.curDomList ∧ x ≠ d := by
  rw [mem_curDomList, mem_curDomList]
  simp only [mem_pruneDom]
  constructor
  · rintro (⟨rfl, hb, _⟩ | ⟨hne, hm⟩)
    · exact absurd hb (by simp)
    · exact ⟨hm, hne⟩
  · rintro ⟨hm, hne⟩
    exact Or.inr ⟨hne, hm⟩

theorem mem_curDomain_pruneValue_unassigned (st : State) (v : Nat) (d x : Int)
    (h : getAssignedValue st v = none) :
    x ∈ curDomain (pruneValue st v d) v ↔ x ∈ curDomain st v ∧ x ≠ d := by
  by_cases hlen : v < st.length
  · rw [curDomain, getVar_pruneValue_self st v d hlen]
    rw [getAssignedValue] at h
    have : curDomain st v = (getVar st v).curDomList := by
      rw [curDomain, VarState.curDom, h]
    rw [this, VarState.curDom]
    simp only [h]
    exact curDomList_pruneDom (getVar st v) d x
  · rw [pruneValue_oob _ _ _ (Nat.le_of_not_lt hlen)]
    rw [curDomain, getVar_oob _ _ (Nat.le_of_not_lt hlen), VarState.curDom]
    simp [VarState.curDomList]

theorem mem_curDomain_pruneValue (st : State) (v w : Nat) (d x : Int)
    (h : x ∈ curDomain (pruneValue st v d) w) : x ∈ curDomain st w := by
  by_cases hw : w = v
  · subst hw
    cases ha : getAssignedValue st w with
    | none => exact ((mem_curDomain_pruneValue_unassigned st w d x ha).1 h).1
    | some a => rwa [curDomain_pruneValue_assigned st w d a ha] at h
  · rwa [curDomain_pruneValue_ne st v w d hw] at h

theorem assigned_assignVar_self (st : State) (v : Nat) (d : Int) (h : v < st.length) :
    getAssignedValue (assignVar st v d) v = some d := by
  simp [getAssignedValue, assignVar, getVar_setVar_self _ _ _ h]

theorem assigned_assignVar_ne (st : State) (v w : Nat) (d : Int) (h : w ≠ v) :
    getAssignedValue (assignVar st v d) w = getAssignedValue st w := by
  simp [getAssignedValue, assignVar, getVar_setVar_ne _ _ _ _ h]

theorem unassign_assign (st : State) (v : Nat) (d : Int)
    (h : getAssignedValue st v = none) :
    unassignVar (assignVar st v d) v = st := by
  by_cases hlen : v < st.length
  · rw [unassignVar, assignVar, getVar_setVar_self _ _ _ hlen, setVar_setVar]
    have : (⟨(getVar st v).dom, none⟩ : VarState) = getVar st v := by
      rw [getAssignedValue] at h
      cases hs : getVar st v
      rw [hs] at h
      simp at h ⊢
      exact h.symm
    rw [this, setVar_getVar]
  · rw [assignVar, setVar_oob _ _ _ (Nat.le_of_not_lt hlen),
      unassignVar, setVar_oob _ _ _ (Nat.le_of_not_lt hlen)]

theorem unassign_prune_assign (st : State) (v : Nat) (d : Int)
    (h : getAssignedValue st v = none) :
    unassignVar (pruneValue (assignVar st v d) v d) v = pruneValue st v d := by
  by_cases hlen : v < st.length
  · have h1 : getVar (assignVar st v d) v = ⟨(getVar st v).dom, some d⟩ :=
      getVar_setVar_self _ _ _ hlen
    have hlen1 : v < (assignVar st v d).length := by
      rw [assignVar, length_setVar]; exact hlen
    have hlen2 : v < (pruneValue (assignVar st v d) v d).length := by
      rw [pruneValue, length_setVar]; exact hlen1
    rw [pruneValue, h1]
    rw [unassignVar, getVar_setVar_self _ _ _ hlen1, assignVar, setVar_setVar,
      setVar_setVar]
    rw [getAssignedValue] at h
    rw [pruneValue, h]
  · have hle := Nat.le_of_not_lt hlen
    simp [assignVar, unassignVar, pruneValue, setVar_oob _ _ _ hle]

/-! ### Congruence and monotonicity of the support query -/

theorem hasSupport_mono (c : Constraint) (st1 st2 : State) (v : Nat) (d : Int)
    (h : ∀ w ∈ c.scope, ∀ x, x ∈ curDomain st1 w → x ∈ curDomain st2 w)
    (hs : c.hasSupport st1 v d = true) : c.hasSupport st2 v d = true := by
  unfold Constraint.hasSupport at hs ⊢
  rw [List.any_eq_true] at hs ⊢
  obtain ⟨t, ht, hprop⟩ := hs
  refine ⟨t, ht, ?_⟩
  rw [Bool.and_eq_true] at hprop ⊢
  refine ⟨hprop.1, ?_⟩
  rw [List.all_eq_true] at hprop ⊢
  intro p hp
  have hw : p.1 ∈ c.scope := (List.of_mem_zip hp).1
  have := hprop.2 p hp
  by_cases hv : p.1 == v
  · rwa [if_pos hv] at this ⊢
  · rw [if_neg hv] at this ⊢
    rw [List.elem_iff] at this ⊢
    exact h p.1 hw p.2 this

theorem hasSupport_congr (c : Constraint) (st1 st2 : State) (v : Nat) (d : Int)
    (h : ∀ w ∈ c.scope, curDomain st1 w = curDomain st2 w) :
    c.hasSupport st1 v d = c.hasSupport st2 v d := by
  have h12 : ∀ w ∈ c.scope, ∀ x, x ∈ curDomain st1 w → x ∈ curDomain st2 w :=
    fun w hw x hx => (h w hw) ▸ hx
  have h21 : ∀ w ∈ c.scope, ∀ x, x ∈ curDomain st2 w → x ∈ curDomain st1 w :=
    fun w hw x hx => (h w hw).symm ▸ hx
  cases hb : c.hasSupport st1 v d
  · cases hb2 : c.hasSupport st2 v d
    · rfl
    · rw [← hb]
      exact (hasSupport_mono c st2 st1 v d h21 hb2).symm ▸ (hasSupport_mono c st2 st1 v d h21 hb2)
  · exact (hasSupport_mono c st1 st2 v d h12 hb).symm

/-! ### Characterising one forward-checking step -/

theorem fcViolates_assign (C : Constraint) (X : Nat) (st : State) (d : Int)
    (hXlen : X < st.length) :
    C.check (C.scope.map (getAssignedValue (assignVar st X d))) = !(fcViolates C X st d) := by
  have hmap : C.scope.map (getAssignedValue (assignVar st X d)) =
      C.scope.map (fun w => if w = X then some d else getAssignedValue st w) := by
    apply List.map_congr_left
    intro w hw
    by_cases hwx : w = X
    · subst hwx
      rw [if_pos rfl, assigned_assignVar_self st w d hXlen]
    · rw [if_neg hwx, assigned_assignVar_ne st X w d hwx]
  rw [hmap, fcViolates, Bool.not_not]

theorem fcViolates_congr (C : Constraint) (X : Nat) (st st' : State) (d : Int)
    (h : ∀ w, w ≠ X → getAssignedValue st' w = getAssignedValue st w) :
    fcViolates C X st' d = fcViolates C X st d := by
  unfold fcViolates
  congr 2
  apply List.map_congr_left
  intro w hw
  by_cases hwx : w = X
  · rw [if_pos hwx, if_pos hwx]
  · rw [if_neg hwx, if_neg hwx, h w hwx]

theorem length_assignVar (st : State) (v : Nat) (d : Int) :
    (assignVar st v d).length = st.length := length_setVar _ _ _

theorem length_unassignVar (st : State) (v : Nat) :
    (unassignVar st v).length = st.length := length_setVar _ _ _

theorem fc_check_loop_spec (C : Constraint) (X : Nat) (st0 : State) :
    ∀ ds st pr, st.length = st0.length → X < st0.length →
    getAssignedValue st X = none →
    (∀ w, w ≠ X → getAssignedValue st w = getAssignedValue st0 w) →
    fc_check_loop C X ds st pr =
      ((ds.filter (fcViolates C X st0)).foldl (fun s d => pruneValue s X d) st,
       pr ++ (ds.filter (fcViolates C X st0)).map (fun d => (X, d))) := by
  intro ds
  induction ds with
  | nil => intro st pr _ _ _ _; simp [fc_check_loop]
  | cons d ds ih =>
    intro st pr hlen hXlen hX hcong
    have hXst : X < st.length := hlen ▸ hXlen
    have hcheck : C.check (C.scope.map (getAssignedValue (assignVar st X d))) =
        !(fcViolates C X st0 d) := by
      rw [fcViolates_assign C X st d hXst]
      congr 1
      exact fcViolates_congr C X st0 st d (fun w hw => hcong w hw)
    rw [fc_check_loop, hcheck]
    cases hviol : fcViolates C X st0 d with
    | false =>
      simp only [Bool.not_false]
      rw [if_pos trivial]
      rw [unassign_assign st X d hX]
      rw [ih st pr hlen hXlen hX hcong]
      simp [List.filter_cons, hviol]
    | true =>
      simp only [Bool.not_true]
      rw [if_neg (by simp)]
      rw [unassign_prune_assign st X d hX]
      have hlen' : (pruneValue st X d).length = st0.length := by
        rw [length_pruneValue]; exact hlen
      have hX' : getAssignedValue (pruneValue st X d) X = none := by
        rw [assigned_pruneValue]; exact hX
      have hcong' : ∀ w, w ≠ X → getAssignedValue (pruneValue st X d) w = getAssignedValue st0 w := by
        intro w hw
        rw [assigned_pruneValue]; exact hcong w hw
      rw [ih (pruneValue st X d) (pr ++ [(X, d)]) hlen' hXlen hX' hcong']
      simp [List.filter_cons, hviol]

theorem fc_check_spec (C : Constraint) (X : Nat) (st : State) (pr : List (Nat × Int))
    (hXlen : X < st.length) (hX : getAssignedValue st X = none) :
    fc_check C X st pr =
      (!(curDomainSize (fcPruned C X st) X == 0), fcPruned C X st, pr ++ fcRecord C X st) := by
  rw [fc_check, fc_check_loop_spec C X st (curDomain st X) st pr rfl hXlen hX (fun _ _ => rfl)]
  rfl

/-! ### The sole unassigned variable of a forward-checked constraint -/

theorem unasgnVars_of_nUnasgn_one (c : Constraint) (st : State) (h : c.nUnasgn st = 1) :
    c.unasgnVars st = [(c.unasgnVars st).headD 0] := by
  rw [Constraint.nUnasgn] at h
  obtain ⟨x, hx⟩ := List.length_eq_one.1 h
  rw [Constraint.unasgnVars, hx]
  rfl

theorem fc_var_unassigned (c : Constraint) (st : State) (h : c.nUnasgn st = 1) :
    (c.unasgnVars st).headD 0 ∈ c.scope ∧
      getAssignedValue st ((c.unasgnVars st).headD 0) = none := by
  have hx := unasgnVars_of_nUnasgn_one c st h
  have hmem : (c.unasgnVars st).headD 0 ∈ c.unasgnVars st := by
    rw [hx]; exact List.mem_singleton.2 rfl
  rw [Constraint.unasgnVars, List.mem_filter] at hmem
  exact ⟨hmem.1, Option.isNone_iff_eq_none.1 hmem.2⟩

theorem fc_others_assigned (c : Constraint) (st : State) (h : c.nUnasgn st = 1)
    (w : Nat) (hw : w ∈ c.scope) (hne : w ≠ (c.unasgnVars st).headD 0) :
    (getAssignedValue st w).isSome := by
  cases hws : getAssignedValue st w with
  | some a => rfl
  | none =>
    exfalso
    have hmem : w ∈ c.unasgnVars st := by
      rw [Constraint.unasgnVars, List.mem_filter]
      exact ⟨hw, by rw [hws]; rfl⟩
    rw [unasgnVars_of_nUnasgn_one c st h] at hmem
    exact hne (List.mem_singleton.1 hmem)

/-! ### Plain backtracking -/

theorem bt_loop_false_iff (st : State) (l : List Constraint) :
    bt_loop st l = false ↔
      ∃ c ∈ l, c.nUnasgn st = 0 ∧ c.check (c.scope.map (getAssignedValue st)) = false := by
  induction l with
  | nil => simp [bt_loop]
  | cons c rest ih =>
    rw [bt_loop]
    by_cases h0 : c.nUnasgn st = 0
    · rw [if_pos h0]
      cases hc : c.check (c.scope.map (getAssignedValue st)) with
      | true =>
        rw [if_pos rfl]
        constructor
        · intro h
          obtain ⟨c', hc', hprop⟩ := ih.1 h
          exact ⟨c', List.mem_cons_of_mem _ hc', hprop⟩
        · rintro ⟨c', hmem, h0', hfalse⟩
          rcases List.mem_cons.1 hmem with rfl | hmem'
          · exact absurd hfalse (by simp [hc])
          · exact ih.2 ⟨c', hmem', h0', hfalse⟩
      | false =>
        rw [if_neg (by simp)]
        constructor
        · intro _
          exact ⟨c, List.mem_cons_self c rest, h0, hc⟩
        · intro _; rfl
    · rw [if_neg h0, ih]
      constructor
      · rintro ⟨c', hm, hp⟩
        exact ⟨c', List.mem_cons_of_mem _ hm, hp⟩
      · rintro ⟨c', hmem, h0', hfalse⟩
        rcases List.mem_cons.1 hmem with rfl | hmem'
        · exact absurd h0' h0
        · exact ⟨c', hmem', h0', hfalse⟩

/-- C9: `prop_BT` never prunes: when `newVar` is unset it returns `(true, [])`
immediately; otherwise it returns `(false, [])` iff some constraint incident to
`newVar` whose scope is fully assigned is violated by the tuple of assigned
values, and `(true, [])` otherwise; the pruning list is `[]` on every path and
no state is threaded because the source performs only read-only queries. -/
theorem c9_prop_BT_never_prunes (csp : CSP) (st : State) :
    (∀ newVar, (prop_BT csp newVar st).2 = []) ∧
    prop_BT csp none st = (true, []) ∧
    (∀ v, prop_BT csp (some v) st = (false, []) ↔
      ∃ c ∈ getConsWithVar csp v, c.nUnasgn st = 0 ∧
        c.check (c.scope.map (getAssignedValue st)) = false) ∧
    (∀ v, prop_BT csp (some v) st = (true, []) ↔
      ¬ ∃ c ∈ getConsWithVar csp v, c.nUnasgn st = 0 ∧
        c.check (c.scope.map (getAssignedValue st)) = false) := by
  refine ⟨?_, rfl, ?_, ?_⟩
  · intro nv; cases nv <;> rfl
  · intro v
    rw [prop_BT]
    constructor
    · intro h
      have hb : bt_loop st (getConsWithVar csp v) = false := by
        have := congrArg Prod.fst h
        simpa using this
      exact (bt_loop_false_iff st _).1 hb
    · intro h
      rw [(bt_loop_false_iff st _).2 h]
  · intro v
    rw [prop_BT]
    have hiff := bt_loop_false_iff st (getConsWithVar csp v)
    constructor
    · intro h hex
      have hfalse := hiff.2 hex
      rw [hfalse] at h
      simp at h
    · intro hne
      cases hb : bt_loop st (getConsWithVar csp v) with
      | true => rfl
      | false => exact absurd (hiff.1 hb) hne

/-! ### Forward checking: the C2 contract -/

theorem fc_check_false (C : Constraint) (X : Nat) (st : State) (pr : List (Nat × Int))
    (ok : Bool) (st1 : State) (pr1 : List (Nat × Int))
    (hfc : fc_check C X st pr = (ok, st1, pr1)) (hok : ok = false) :
    curDomainSize st1 X = 0 := by
  rw [fc_check] at hfc
  rcases hl : fc_check_loop C X (curDomain st X) st pr with ⟨s, p⟩
  rw [hl] at hfc
  cases hfc
  rw [Bool.not_eq_false'] at hok
  simpa using hok

theorem prop_FC_loop_false_wipeout (csp : CSP) :
    ∀ cons (st1 : State) pr st2 pr2,
      prop_FC_loop csp cons st1 pr = (false, st2, pr2) → ∃ x, curDomainSize st2 x = 0 := by
  intro cons
  induction cons with
  | nil => intro st1 pr st2 pr2 h; exact absurd h (by rw [prop_FC_loop]; simp)
  | cons c rest ih =>
    intro st1 pr st2 pr2 h
    rw [prop_FC_loop] at h
    by_cases h1 : c.nUnasgn st1 = 1
    · rw [if_pos h1] at h
      rcases hfc : fc_check c ((c.unasgnVars st1).headD 0) st1 pr with ⟨ok, stx, prx⟩
      rw [hfc] at h
      cases ok with
      | true => exact ih stx prx st2 pr2 (by simpa using h)
      | false =>
        simp only [Bool.false_eq_true, if_false] at h
        cases h
        exact ⟨(c.unasgnVars st1).headD 0, fc_check_false c _ st1 pr _ _ _ hfc rfl⟩
    · rw [if_neg h1] at h
      exact ih st1 pr st2 pr2 h

/-- C2: `prop_FC` considers exactly the constraints with exactly one remaining
unassigned variable, drawn from all constraints when `newVar` is unset and from
the constraints incident to `newVar` otherwise; for a qualifying constraint
with sole unassigned variable `X` it prunes from `X`'s current domain exactly
the values `d` whose scope tuple (with `X` at `d` and the other scope variables
at their assigned values) fails the check, appending `(X, d)` to the record for
each prune, and reports false exactly on domain wipeout, so a call with no
wipeout returns `(true, prunedSoFar)`. -/
theorem c2_prop_FC_contract (csp : CSP) (st : State) :
    (prop_FC csp none st = prop_FC_loop csp (getAllCons csp) st []) ∧
    (∀ v, prop_FC csp (some v) st = prop_FC_loop csp (getConsWithVar csp v) st []) ∧
    (∀ (c : Constraint) rest (st1 : State) pr, c.nUnasgn st1 ≠ 1 →
      prop_FC_loop csp (c :: rest) st1 pr = prop_FC_loop csp rest st1 pr) ∧
    (∀ (C : Constraint) (st1 : State) pr X, C.nUnasgn st1 = 1 →
      X = (C.unasgnVars st1).headD 0 → X < st1.length →
      fc_check C X st1 pr =
        (!(curDomainSize (fcPruned C X st1) X == 0), fcPruned C X st1,
          pr ++ fcRecord C X st1)) ∧
    (∀ cons (st1 : State) pr st2 pr2,
      prop_FC_loop csp cons st1 pr = (false, st2, pr2) →
        ∃ x, curDomainSize st2 x = 0) := by
  refine ⟨rfl, fun v => rfl, ?_, ?_, prop_FC_loop_false_wipeout csp⟩
  · intro c rest st1 pr hne
    rw [prop_FC_loop, if_neg hne]
  · intro C st1 pr X h1 hXdef hXlen
    subst hXdef
    exact fc_check_spec C _ st1 pr hXlen (fc_var_unassigned C st1 h1).2

/-- Witness for C2 on the spec's forward-checking scenario (`Y1 = 1` against a
not-equal constraint with `Y2` unassigned). -/
theorem c2_witness :
    neCon.nUnasgn neState = 1 ∧
    fc_check neCon 1 neState [] =
      (!(curDomainSize (fcPruned neCon 1 neState) 1 == 0), fcPruned neCon 1 neState,
        [] ++ fcRecord neCon 1 neState) :=
  ⟨by decide,
    (c2_prop_FC_contract neCSP neState).2.2.2.1 neCon neState [] 1
      (by decide) (by decide) (by decide)⟩

/-! ### More support-query facts -/

theorem curDomain_assigned (st : State) (w : Nat) (a : Int)
    (h : getAssignedValue st w = some a) : curDomain st w = [a] := by
  rw [getAssignedValue] at h
  rw [curDomain, VarState.curDom, h]

theorem check_of_hasSupport (C : Constraint) (X : Nat) (st : State) (d : Int)
    (hXlen : X < st.length)
    (hothers : ∀ w ∈ C.scope, w ≠ X → (getAssignedValue st w).isSome)
    (hsupp : C.hasSupport st X d = true) :
    C.check (C.scope.map (getAssignedValue (assignVar st X d))) = true := by
  rw [Constraint.hasSupport, List.any_eq_true] at hsupp
  obtain ⟨t, ht, hprop⟩ := hsupp
  rw [Bool.and_eq_true] at hprop
  obtain ⟨hlen, hall⟩ := hprop
  have hlen' : t.length = C.scope.length := by simpa using hlen
  rw [List.all_eq_true] at hall
  rw [Constraint.check, List.any_eq_true]
  refine ⟨t, ht, ?_⟩
  rw [beq_iff_eq]
  apply List.ext_getElem
  · simp [hlen']
  · intro i hi1 hi2
    have hiT : i < t.length := by simpa using hi1
    have hiS : i < C.scope.length := by simpa using hi2
    have hzip : i < (C.scope.zip t).length := by
      simp [List.length_zip, hlen']
      omega
    have hmem : (C.scope.zip t)[i] ∈ C.scope.zip t := List.getElem_mem hzip
    have hpz := hall _ hmem
    rw [List.getElem_zip] at hpz
    dsimp only at hpz
    simp only [List.getElem_map]
    by_cases hwx : C.scope[i] = X
    · rw [if_pos (by simpa using hwx)] at hpz
      rw [hwx, assigned_assignVar_self st X d hXlen]
      rw [beq_iff_eq] at hpz
      rw [hpz]
    · rw [if_neg (by simpa using hwx)] at hpz
      rw [assigned_assignVar_ne st X _ d hwx]
      have hsome := hothers C.scope[i] (List.getElem_mem hiS) hwx
      obtain ⟨a, ha⟩ := Option.isSome_iff_exists.1 hsome
      rw [curDomain_assigned st _ a ha] at hpz
      rw [List.elem_iff] at hpz
      rw [ha]
      have : t[i] = a := List.mem_singleton.1 hpz
      rw [this]

/-- C8: no strategy prunes a supported value.  `prop_BT` never prunes at all;
a GAC value-loop step whose value has support under the popped constraint
leaves state, record and worklist untouched; and a forward-checking probe of a
value that has support under the constraint (the other scope variables being
assigned, so their current domains are exactly their assigned values) passes
the check and prunes nothing. -/
theorem c8_no_sound_value_pruned (csp : CSP) :
    (∀ newVar st, (prop_BT csp newVar st).2 = []) ∧
    (∀ (con : Constraint) (v : Nat) (d : Int) ds (st : State) pr q,
      con.hasSupport st v d = true →
      gacd csp (gac_reenqueue csp) con v (d :: ds) st pr q =
        gacd csp (gac_reenqueue csp) con v ds st pr q) ∧
    (∀ (C : Constraint) (X : Nat) (st : State) (d : Int) ds pr,
      X < st.length → getAssignedValue st X = none →
      (∀ w ∈ C.scope, w ≠ X → (getAssignedValue st w).isSome) →
      C.hasSupport st X d = true →
      fc_check_loop C X (d :: ds) st pr = fc_check_loop C X ds st pr) := by
  refine ⟨?_, ?_, ?_⟩
  · intro nv st; cases nv <;> rfl
  · intro con v d ds st pr q hsupp
    rw [gacd, if_pos hsupp]
  · intro C X st d ds pr hXlen hX hothers hsupp
    rw [fc_check_loop, if_pos (check_of_hasSupport C X st d hXlen hothers hsupp),
      unassign_assign st X d hX]

/-- Witness for C8: in the spec's forward-checking scenario the value 2 of the
unassigned variable has support, and the probing step leaves everything
unchanged. -/
theorem c8_witness :
    neCon.hasSupport neState 1 2 = true ∧
    fc_check_loop neCon 1 [2] neState [] = fc_check_loop neCon 1 [] neState [] :=
  ⟨by decide,
    (c8_no_sound_value_pruned neCSP).2.2 neCon 1 neState 2 [] []
      (by decide) (by decide) (by decide) (by decide)⟩

/-- C10: when `fc_check` prunes a value `d` it does so on the state in which
`X` is still assigned `d` (the probe sequence is assign, check, prune,
unassign), so the intermediate state just after the prune has `X` assigned `d`
while `d` is no longer an active member of `X`'s domain. -/
theorem c10_fc_prune_while_assigned (C : Constraint) (X : Nat) (st : State)
    (d : Int) (ds : List Int) (pr : List (Nat × Int))
    (hXlen : X < st.length)
    (hviol : C.check (C.scope.map (getAssignedValue (assignVar st X d))) = false) :
    fc_check_loop C X (d :: ds) st pr =
      fc_check_loop C X ds
        (unassignVar (pruneValue (assignVar st X d) X d) X) (pr ++ [(X, d)]) ∧
    getAssignedValue (pruneValue (assignVar st X d) X d) X = some d ∧
    d ∉ (getVar (pruneValue (assignVar st X d) X d) X).curDomList := by
  refine ⟨?_, ?_, ?_⟩
  · rw [fc_check_loop, hviol]
    rw [if_neg (by simp)]
  · rw [assigned_pruneValue, assigned_assignVar_self st X d hXlen]
  · intro hmem
    rw [mem_curDomList] at hmem
    have hXlen' : X < (assignVar st X d).length := by
      rw [length_assignVar]; exact hXlen
    rw [getVar_pruneValue_self _ X d hXlen'] at hmem
    rw [mem_pruneDom] at hmem
    rcases hmem with ⟨_, hb, _⟩ | ⟨hne, _⟩
    · exact absurd hb (by simp)
    · exact hne rfl

/-- Witness for C10: the probe of value 1 in the forward-checking scenario
violates the constraint, prunes 1 while the variable is assigned 1, and the
intermediate state has 1 inactive in the domain. -/
theorem c10_witness :
    neCon.check (neCon.scope.map (getAssignedValue (assignVar neState 1 1))) = false ∧
    (fc_check_loop neCon 1 [1] neState [] =
      fc_check_loop neCon 1 []
        (unassignVar (pruneValue (assignVar neState 1 1) 1 1) 1) ([] ++ [(1, 1)]) ∧
     getAssignedValue (pruneValue (assignVar neState 1 1) 1 1) 1 = some 1 ∧
     (1:Int) ∉ (getVar (pruneValue (assignVar neState 1 1) 1 1) 1).curDomList) :=
  ⟨by decide, c10_fc_prune_while_assigned neCon 1 neState 1 [] [] (by decide) (by decide)⟩

/-! ### Wipeout semantics (C5) -/

theorem gacd_false_form (csp : CSP) (R : Nat → List Constraint → List Constraint)
    (con : Constraint) (v : Nat) :
    ∀ ds (st : State) pr q st1 pr1 q1,
      gacd csp R con v ds st pr q = (false, st1, pr1, q1) →
      q1 = [] ∧ curDomainSize st1 v = 0 ∧ ∃ d pr0, pr1 = pr0 ++ [(v, d)] := by
  intro ds
  induction ds with
  | nil => intro st pr q st1 pr1 q1 h; exact absurd h (by rw [gacd]; simp)
  | cons d ds ih =>
    intro st pr q st1 pr1 q1 h
    rw [gacd] at h
    by_cases hs : con.hasSupport st v d = true
    · rw [if_pos hs] at h
      exact ih st pr q st1 pr1 q1 h
    · rw [if_neg hs] at h
      by_cases hw : curDomainSize (pruneValue st v d) v = 0
      · rw [if_pos hw] at h
        cases h
        exact ⟨rfl, hw, d, pr, rfl⟩
      · rw [if_neg hw] at h
        exact ih _ _ _ st1 pr1 q1 h

/-- C5: domain wipeout fails immediately and reports exactly the pruning so
far.  A GAC value-loop step that wipes out `v` returns `false` at once with the
worklist cleared and the wiping pair recorded last; every `false` result of the
value loop has that shape; a `false` scope-loop result makes `gac_enforce`
return `(false, prunedSoFar)` without touching the remaining queue; `fc_check`
reports false exactly when `X`'s current domain ended empty; and `prop_FC`
returns that failure right after the wiping constraint without processing the
remaining constraints.  (Failure is a return value by construction: the
embedded propagators are total functions.) -/
theorem c5_wipeout_fails_immediately (csp : CSP) :
    (∀ (con : Constraint) (v : Nat) (d : Int) ds (st : State) pr q,
      con.hasSupport st v d = false →
      curDomainSize (pruneValue st v d) v = 0 →
      gacd csp (gac_reenqueue csp) con v (d :: ds) st pr q =
        (false, pruneValue st v d, pr ++ [(v, d)], [])) ∧
    (∀ (con : Constraint) (v : Nat) ds (st : State) pr q st1 pr1 q1,
      gacd csp (gac_reenqueue csp) con v ds st pr q = (false, st1, pr1, q1) →
      q1 = [] ∧ curDomainSize st1 v = 0 ∧ ∃ d pr0, pr1 = pr0 ++ [(v, d)]) ∧
    (∀ fuel (con : Constraint) q (st : State) pr st1 pr1 q1,
      gacs csp (gac_reenqueue csp) con con.scope st pr q = (false, st1, pr1, q1) →
      gace csp (gac_reenqueue csp) (fuel + 1) (con :: q) st pr =
        some (false, st1, pr1)) ∧
    (∀ (C : Constraint) (X : Nat) (st : State) pr ok st1 pr1,
      fc_check C X st pr = (ok, st1, pr1) →
      (ok = false ↔ curDomainSize st1 X = 0)) ∧
    (∀ (c : Constraint) rest (st : State) pr st1 pr1,
      c.nUnasgn st = 1 →
      fc_check c ((c.unasgnVars st).headD 0) st pr = (false, st1, pr1) →
      prop_FC_loop csp (c :: rest) st pr = (false, st1, pr1)) := by
  refine ⟨?_, ?_, ?_, ?_, ?_⟩
  · intro con v d ds st pr q hs hw
    rw [gacd, if_neg (by simp [hs]), if_pos hw]
  · intro con v ds st pr q st1 pr1 q1 h
    exact gacd_false_form csp (gac_reenqueue csp) con v ds st pr q st1 pr1 q1 h
  · intro fuel con q st pr st1 pr1 q1 h
    rw [gace, h]
    simp
  · intro C X st pr ok st1 pr1 hfc
    rw [fc_check] at hfc
    rcases hl : fc_check_loop C X (curDomain st X) st pr with ⟨s, p⟩
    rw [hl] at hfc
    cases hfc
    constructor
    · intro hok
      rw [Bool.not_eq_false'] at hok
      simpa using hok
    · intro hz
      rw [hz]
      simp
  · intro c rest st pr st1 pr1 h1 hfc
    rw [prop_FC_loop, if_pos h1, hfc]
    simp

/-- Witness for C5 on the spec's wipeout scenario: pruning the last value of
the second variable makes `prop_FC` fail right away with the exact record. -/
theorem c5_witness :
    zCon.nUnasgn zState = 1 ∧
    fc_check zCon ((zCon.unasgnVars zState).headD 0) zState [] =
      (false, zFinal, [(1, 1)]) ∧
    prop_FC_loop zCSP [zCon] zState [] = (false, zFinal, [(1, 1)]) :=
  ⟨by decide, by decide,
    (c5_wipeout_fails_immediately zCSP).2.2.2.2 zCon [] zState [] zFinal [(1, 1)]
      (by decide) (by decide)⟩

/-! ### The pruning frame: PruneDelta -/

theorem prunedelta_refl (st : State) : PruneDelta st st [] := by
  refine ⟨rfl, fun v => rfl, fun v => ?_, fun v d h => absurd h (List.not_mem_nil _)⟩
  have : ∀ p ∈ (getVar st v).dom,
      (if (v, p.1) ∈ ([] : List (Nat × Int)) then (p.1, false) else p) = p := by
    intro p _
    rw [if_neg (List.not_mem_nil _)]
  rw [List.map_congr_left this, List.map_id']

theorem nodup_key_eq (l : List (Int × Bool)) (h : (l.map Prod.fst).Nodup)
    (p q : Int × Bool) (hp : p ∈ l) (hq : q ∈ l) (hk : p.1 = q.1) : p = q :=
  List.inj_on_of_nodup_map h hp hq hk

theorem curDomain_ne_nil_lt (st : State) (v : Nat) (d : Int)
    (hd : d ∈ curDomain st v) : v < st.length := by
  by_contra hlt
  rw [curDomain, getVar_oob st v (Nat.le_of_not_lt hlt)] at hd
  simp [VarState.curDom, VarState.curDomList] at hd

theorem prunedelta_dom_fst (st0 st : State) (R : List (Nat × Int)) (v : Nat)
    (hpd : PruneDelta st0 st R) :
    (getVar st v).dom.map Prod.fst = (getVar st0 v).dom.map Prod.fst := by
  rw [hpd.2.2.1 v, List.map_map]
  apply List.map_congr_left
  intro p _
  by_cases hm : (v, p.1) ∈ R
  · simp [hm]
  · simp [hm]

theorem prunedelta_nodup_curDomain (st0 st : State) (R : List (Nat × Int)) (v : Nat)
    (hwf : StateWF st0) (hpd : PruneDelta st0 st R) : (curDomain st v).Nodup := by
  rw [curDomain, VarState.curDom]
  cases ha : (getVar st v).assigned with
  | some a => exact List.nodup_singleton a
  | none =>
    have hfst : ((getVar st v).dom.map Prod.fst).Nodup := by
      rw [prunedelta_dom_fst st0 st R v hpd]
      exact (stateWF_getVar st0 v hwf).1
    rw [VarState.curDomList]
    have hsub : (((getVar st v).dom.filter (fun p => p.2)).map (fun p => p.1)).Sublist
        ((getVar st v).dom.map Prod.fst) := (List.filter_sublist _).map _
    exact hfst.sublist hsub

theorem prunedelta_entry_true (st0 st : State) (R : List (Nat × Int)) (v : Nat)
    (d : Int) (hwf : StateWF st0) (hpd : PruneDelta st0 st R)
    (hd : d ∈ curDomain st v) :
    ∀ p ∈ (getVar st0 v).dom, p.1 = d → p.2 = true := by
  intro p hp hpk
  have hlt : v < st.length := curDomain_ne_nil_lt st v d hd
  rw [curDomain, VarState.curDom] at hd
  have hnd0 := (stateWF_getVar st0 v hwf).1
  cases ha : (getVar st v).assigned with
  | some a =>
    rw [ha] at hd
    have hda : d = a := List.mem_singleton.1 hd
    have ha0 : (getVar st0 v).assigned = some a := (hpd.2.1 v) ▸ ha
    have hmem : (a, true) ∈ (getVar st0 v).dom :=
      assignedOK_some (getVar st0 v) a (stateWF_getVar st0 v hwf).2 ha0
    have := nodup_key_eq _ hnd0 p (a, true) hp hmem (by rw [hpk, hda])
    rw [this]
  | none =>
    rw [ha] at hd
    rw [mem_curDomList] at hd
    rw [hpd.2.2.1 v] at hd
    rw [List.mem_map] at hd
    obtain ⟨p0, hp0, himg⟩ := hd
    by_cases hm : (v, p0.1) ∈ R
    · rw [if_pos hm] at himg
      exact absurd (congrArg Prod.snd himg) (by simp)
    · rw [if_neg hm] at himg
      have hpeq := nodup_key_eq _ hnd0 p p0 hp hp0 (by rw [hpk, himg])
      rw [hpeq, himg]

theorem prunedelta_prune (st0 st : State) (R : List (Nat × Int)) (v : Nat) (d : Int)
    (hwf : StateWF st0) (hpd : PruneDelta st0 st R) (hd : d ∈ curDomain st v) :
    PruneDelta st0 (pruneValue st v d) (R ++ [(v, d)]) := by
  have hlt : v < st.length := curDomain_ne_nil_lt st v d hd
  obtain ⟨hlen, hslot, hdom, htrue⟩ := hpd
  refine ⟨by rw [length_pruneValue]; exact hlen, ?_, ?_, ?_⟩
  · intro w
    rw [show (getVar (pruneValue st v d) w).assigned = getAssignedValue (pruneValue st v d) w from rfl,
      assigned_pruneValue]
    exact hslot w
  · intro w
    by_cases hw : w = v
    · subst hw
      rw [getVar_pruneValue_self st w d hlt, hdom w]
      show pruneDom _ d = _
      rw [pruneDom, List.map_map]
      apply List.map_congr_left
      intro p _
      dsimp only [Function.comp_apply]
      by_cases hmem : (w, p.1) ∈ R
      · have hR' : (w, p.1) ∈ R ++ [(w, d)] := List.mem_append_left _ hmem
        rw [if_pos hmem, if_pos hR']
        simp
      · rw [if_neg hmem]
        by_cases hpd' : p.1 = d
        · have hR' : (w, p.1) ∈ R ++ [(w, d)] := by
            rw [hpd']; exact List.mem_append_right _ (List.mem_singleton.2 rfl)
          rw [if_pos hR', if_pos hpd']
        · have hR' : (w, p.1) ∉ R ++ [(w, d)] := by
            rw [List.mem_append]
            rintro (h | h)
            · exact hmem h
            · exact hpd' (by simpa using congrArg Prod.snd (List.mem_singleton.1 h))
          rw [if_neg hR', if_neg hpd']
    · rw [show getVar (pruneValue st v d) w = getVar st w from
        getVar_setVar_ne st v w _ hw, hdom w]
      apply List.map_congr_left
      intro p _
      have : ((w, p.1) ∈ R ++ [(v, d)]) ↔ ((w, p.1) ∈ R) := by
        rw [List.mem_append]
        constructor
        · rintro (h | h)
          · exact h
          · exact absurd (congrArg Prod.fst (List.mem_singleton.1 h)) hw
        · exact Or.inl
      by_cases hmem : (w, p.1) ∈ R
      · rw [if_pos hmem, if_pos (this.2 hmem)]
      · rw [if_neg hmem, if_neg (fun hc => hmem (this.1 hc))]
  · intro w e hwe
    rw [List.mem_append] at hwe
    rcases hwe with hwe | hwe
    · exact htrue w e hwe
    · have hwv : w = v := congrArg Prod.fst (List.mem_singleton.1 hwe)
      have hed : e = d := by simpa using congrArg Prod.snd (List.mem_singleton.1 hwe)
      subst hwv; subst hed
      exact prunedelta_entry_true st0 st R w e hwf ⟨hlen, hslot, hdom, htrue⟩ hd

theorem length_restoreValues (R : List (Nat × Int)) :
    ∀ st : State, (restoreValues st R).length = st.length := by
  induction R with
  | nil => intro st; rfl
  | cons p R ih =>
    intro st
    show (restoreValues (restoreValue st p.1 p.2) R).length = _
    rw [ih, restoreValue, length_setVar]

theorem restoreValues_getVar (R : List (Nat × Int)) :
    ∀ (st : State) (v : Nat),
      getVar (restoreValues st R) v =
        ⟨(getVar st v).dom.map (fun p => if (v, p.1) ∈ R then (p.1, true) else p),
         (getVar st v).assigned⟩ := by
  induction R with
  | nil =>
    intro st v
    have : ∀ p ∈ (getVar st v).dom,
        (if (v, p.1) ∈ ([] : List (Nat × Int)) then (p.1, true) else p) = p := by
      intro p _
      rw [if_neg (List.not_mem_nil _)]
    rw [restoreValues]
    show getVar st v = _
    rw [List.map_congr_left this, List.map_id']
  | cons we R ih =>
    intro st v
    obtain ⟨w0, e0⟩ := we
    show getVar (restoreValues (restoreValue st w0 e0) R) v =
      ⟨(getVar st v).dom.map (fun p => if (v, p.1) ∈ (w0, e0) :: R then (p.1, true) else p),
       (getVar st v).assigned⟩
    rw [ih]
    by_cases hv : v = w0
    · subst hv
      by_cases hlt : v < st.length
      · rw [show getVar (restoreValue st v e0) v =
            ⟨restoreDom (getVar st v).dom e0, (getVar st v).assigned⟩ from
            getVar_setVar_self st v _ hlt]
        show VarState.mk _ _ = VarState.mk _ _
        rw [restoreDom, List.map_map]
        congr 1
        apply List.map_congr_left
        intro p _
        dsimp only [Function.comp_apply]
        by_cases hpe : p.1 = e0
        · have hR' : (v, p.1) ∈ (v, e0) :: R := by
            rw [hpe]; exact List.mem_cons_self _ _
          rw [if_pos hpe, if_pos hR']
          by_cases hm : (v, (p.1, true).1) ∈ R
          · rw [if_pos hm]
          · rw [if_neg hm]
        · rw [if_neg hpe]
          by_cases hm : (v, p.1) ∈ R
          · rw [if_pos hm, if_pos (List.mem_cons_of_mem _ hm)]
          · have hR' : (v, p.1) ∉ (v, e0) :: R := by
              rw [List.mem_cons]
              rintro (h | h)
              · exact hpe (by simpa using congrArg Prod.snd h)
              · exact hm h
            rw [if_neg hm, if_neg hR']
      · rw [show restoreValue st v e0 = st from setVar_oob _ _ _ (Nat.le_of_not_lt hlt)]
        rw [getVar_oob st v (Nat.le_of_not_lt hlt)]
        rfl
    · rw [show getVar (restoreValue st w0 e0) v = getVar st v from
        getVar_setVar_ne st w0 v _ hv]
      show VarState.mk _ _ = VarState.mk _ _
      congr 1
      apply List.map_congr_left
      intro p _
      by_cases hm : (v, p.1) ∈ R
      · rw [if_pos hm, if_pos (List.mem_cons_of_mem _ hm)]
      · have hR' : (v, p.1) ∉ (w0, e0) :: R := by
          rw [List.mem_cons]
          rintro (h | h)
          · exact hv (congrArg Prod.fst h)
          · exact hm h
        rw [if_neg hm, if_neg hR']

theorem prunedelta_restore (st0 st : State) (R : List (Nat × Int))
    (hpd : PruneDelta st0 st R) : restoreValues st R = st0 := by
  obtain ⟨hlen, hslot, hdom, htrue⟩ := hpd
  apply state_ext
  · rw [length_restoreValues]; exact hlen
  · intro v
    rw [restoreValues_getVar R st v, hdom v, hslot v, List.map_map]
    have : ∀ p ∈ (getVar st0 v).dom,
        ((fun p => if (v, p.1) ∈ R then (p.1, true) else p) ∘
          fun p => if (v, p.1) ∈ R then (p.1, false) else p) p = p := by
      intro p hp
      dsimp only [Function.comp_apply]
      by_cases hm : (v, p.1) ∈ R
      · rw [if_pos hm]
        have hm' : (v, (p.1, false).1) ∈ R := hm
        rw [if_pos hm']
        have := htrue v p.1 hm p hp rfl
        cases p
        simp at this ⊢
        rw [this]
      · rw [if_neg hm, if_neg hm]
    rw [List.map_congr_left this, List.map_id']

/-! ### PruneDelta maintenance along the propagators -/

theorem prunedelta_foldl (st0 : State) (X : Nat) (hwf : StateWF st0) :
    ∀ (vals : List Int) (st : State) (R : List (Nat × Int)),
      PruneDelta st0 st R → vals.Nodup → (∀ d ∈ vals, d ∈ curDomain st X) →
      PruneDelta st0 (vals.foldl (fun s d => pruneValue s X d) st)
        (R ++ vals.map (fun d => (X, d))) := by
  intro vals
  induction vals with
  | nil => intro st R hpd _ _; simpa using hpd
  | cons d rest ih =>
    intro st R hpd hnd hmem
    have hd := hmem d (List.mem_cons_self _ _)
    have hstep := prunedelta_prune st0 st R X d hwf hpd hd
    have hrest : ∀ e ∈ rest, e ∈ curDomain (pruneValue st X d) X := by
      intro e he
      cases ha : getAssignedValue st X with
      | some a =>
        rw [curDomain_pruneValue_assigned st X d a ha]
        exact hmem e (List.mem_cons_of_mem _ he)
      | none =>
        rw [mem_curDomain_pruneValue_unassigned st X d e ha]
        refine ⟨hmem e (List.mem_cons_of_mem _ he), ?_⟩
        intro heq
        exact (List.nodup_cons.1 hnd).1 (heq ▸ he)
    have hres := ih (pruneValue st X d) (R ++ [(X, d)]) hstep
      (List.nodup_cons.1 hnd).2 hrest
    rw [List.foldl_cons, List.map_cons]
    rw [List.append_assoc] at hres
    simpa using hres

theorem prunedelta_fc_check (C : Constraint) (X : Nat) (st0 st : State)
    (R : List (Nat × Int)) (hwf : StateWF st0) (hpd : PruneDelta st0 st R)
    (hXlen : X < st.length) (hX : getAssignedValue st X = none) :
    PruneDelta st0 (fcPruned C X st) (R ++ fcRecord C X st) := by
  rw [fcPruned, fcRecord]
  apply prunedelta_foldl st0 X hwf _ st R hpd
  · exact (prunedelta_nodup_curDomain st0 st R X hwf hpd).filter _
  · intro d hdm
    exact (List.mem_filter.1 hdm).1

theorem prop_FC_loop_prunedelta (csp : CSP) (st0 : State)
    (hwf : StateWF st0) (hsb : ScopeBound csp st0) :
    ∀ cons (st : State) (R : List (Nat × Int)) b st2 R2,
      (∀ c ∈ cons, c ∈ csp.cons) →
      PruneDelta st0 st R →
      prop_FC_loop csp cons st R = (b, st2, R2) →
      PruneDelta st0 st2 R2 := by
  intro cons
  induction cons with
  | nil =>
    intro st R b st2 R2 _ hpd h
    rw [prop_FC_loop] at h
    cases h
    exact hpd
  | cons c rest ih =>
    intro st R b st2 R2 hsub hpd h
    rw [prop_FC_loop] at h
    by_cases h1 : c.nUnasgn st = 1
    · rw [if_pos h1] at h
      have hXmem := fc_var_unassigned c st h1
      have hXlen : (c.unasgnVars st).headD 0 < st.length := by
        rw [hpd.1]
        exact hsb c (hsub c (List.mem_cons_self _ _)) _ hXmem.1
      rw [fc_check_spec c _ st R hXlen hXmem.2] at h
      have hpd' := prunedelta_fc_check c ((c.unasgnVars st).headD 0) st0 st R hwf hpd
        hXlen hXmem.2
      cases hok : (!(curDomainSize (fcPruned c ((c.unasgnVars st).headD 0) st)
          ((c.unasgnVars st).headD 0) == 0)) with
      | true =>
        rw [hok] at h
        simp only [if_pos rfl] at h
        exact ih _ _ b st2 R2 (fun c' hc' => hsub c' (List.mem_cons_of_mem _ hc')) hpd' h
      | false =>
        rw [hok] at h
        simp only [Bool.false_eq_true, if_false] at h
        cases h
        exact hpd'
    · rw [if_neg h1] at h
      exact ih st R b st2 R2 (fun c' hc' => hsub c' (List.mem_cons_of_mem _ hc')) hpd h

theorem gacd_prunedelta (csp : CSP) (R : Nat → List Constraint → List Constraint)
    (con : Constraint) (v : Nat) (st0 : State) (hwf : StateWF st0) :
    ∀ ds (st : State) pr q ok st1 pr1 q1,
      PruneDelta st0 st pr → ds.Nodup → (∀ d ∈ ds, d ∈ curDomain st v) →
      gacd csp R con v ds st pr q = (ok, st1, pr1, q1) →
      PruneDelta st0 st1 pr1 := by
  intro ds
  induction ds with
  | nil =>
    intro st pr q ok st1 pr1 q1 hpd _ _ h
    rw [gacd] at h
    cases h
    exact hpd
  | cons d ds ih =>
    intro st pr q ok st1 pr1 q1 hpd hnd hmem h
    rw [gacd] at h
    by_cases hs : con.hasSupport st v d = true
    · rw [if_pos hs] at h
      exact ih st pr q ok st1 pr1 q1 hpd (List.nodup_cons.1 hnd).2
        (fun e he => hmem e (List.mem_cons_of_mem _ he)) h
    · rw [if_neg hs] at h
      have hd := hmem d (List.mem_cons_self _ _)
      have hpd' := prunedelta_prune st0 st pr v d hwf hpd hd
      by_cases hw : curDomainSize (pruneValue st v d) v = 0
      · rw [if_pos hw] at h
        cases h
        exact hpd'
      · rw [if_neg hw] at h
        have hrest : ∀ e ∈ ds, e ∈ curDomain (pruneValue st v d) v := by
          intro e he
          cases ha : getAssignedValue st v with
          | some a =>
            rw [curDomain_pruneValue_assigned st v d a ha]
            exact hmem e (List.mem_cons_of_mem _ he)
          | none =>
            rw [mem_curDomain_pruneValue_unassigned st v d e ha]
            refine ⟨hmem e (List.mem_cons_of_mem _ he), ?_⟩
            intro heq
            exact (List.nodup_cons.1 hnd).1 (heq ▸ he)
        exact ih _ _ _ ok st1 pr1 q1 hpd' (List.nodup_cons.1 hnd).2 hrest h

theorem gacs_prunedelta (csp : CSP) (R : Nat → List Constraint → List Constraint)
    (con : Constraint) (st0 : State) (hwf : StateWF st0) :
    ∀ vs (st : State) pr q ok st1 pr1 q1,
      PruneDelta st0 st pr →
      gacs csp R con vs st pr q = (ok, st1, pr1, q1) →
      PruneDelta st0 st1 pr1 := by
  intro vs
  induction vs with
  | nil =>
    intro st pr q ok st1 pr1 q1 hpd h
    rw [gacs] at h
    cases h
    exact hpd
  | cons v vs ih =>
    intro st pr q ok st1 pr1 q1 hpd h
    rw [gacs] at h
    rcases hd : gacd csp R con v (curDomain st v) st pr q with ⟨okd, std, prd, qd⟩
    rw [hd] at h
    have hpdd := gacd_prunedelta csp R con v st0 hwf (curDomain st v) st pr q okd std prd qd
      hpd (prunedelta_nodup_curDomain st0 st pr v hwf hpd) (fun d hdm => hdm) hd
    cases okd with
    | true =>
      simp only [if_pos rfl] at h
      exact ih std prd qd ok st1 pr1 q1 hpdd h
    | false =>
      simp only [Bool.false_eq_true, if_false] at h
      cases h
      exact hpdd

theorem gace_prunedelta (csp : CSP) (R : Nat → List Constraint → List Constraint)
    (st0 : State) (hwf : StateWF st0) :
    ∀ fuel q (st : State) pr b st1 pr1,
      PruneDelta st0 st pr →
      gace csp R fuel q st pr = some (b, st1, pr1) →
      PruneDelta st0 st1 pr1 := by
  intro fuel
  induction fuel with
  | zero =>
    intro q st pr b st1 pr1 hpd h
    cases q with
    | nil => rw [gace] at h; cases h; exact hpd
    | cons con q => exact absurd h (by rw [gace]; simp)
  | succ fuel ih =>
    intro q st pr b st1 pr1 hpd h
    cases q with
    | nil => rw [gace] at h; cases h; exact hpd
    | cons con q =>
      rw [gace] at h
      rcases hs : gacs csp R con con.scope st pr q with ⟨oks, sts, prs, qs⟩
      rw [hs] at h
      have hpds := gacs_prunedelta csp R con st0 hwf con.scope st pr q oks sts prs qs hpd hs
      cases oks with
      | true =>
        simp only [if_pos rfl] at h
        exact ih qs sts prs b st1 pr1 hpds h
      | false =>
        simp only [Bool.false_eq_true, if_false] at h
        cases h
        exact hpds

/-- C3: the pruned list returned by `prop_FC` or `prop_GAC` is an exact record
of the domain delta — pruning removed exactly the recorded values, so the
caller's undo (restoring exactly those values) returns every variable's domain
to its pre-call state, for any verdict. -/
theorem c3_undo_exactness (csp : CSP) (newVar : Option Nat) (st : State)
    (hwf : StateWF st) :
    (∀ b st2 R2, ScopeBound csp st → prop_FC csp newVar st = (b, st2, R2) →
      restoreValues st2 R2 = st) ∧
    (∀ fuel b st2 R2, prop_GAC csp newVar st fuel = some (b, st2, R2) →
      restoreValues st2 R2 = st) := by
  constructor
  · intro b st2 R2 hsb h
    have hpd : PruneDelta st st2 R2 := by
      cases newVar with
      | none =>
        exact prop_FC_loop_prunedelta csp st hwf hsb (getAllCons csp) st [] b st2 R2
          (fun c hc => hc) (prunedelta_refl st) h
      | some v =>
        exact prop_FC_loop_prunedelta csp st hwf hsb (getConsWithVar csp v) st [] b st2 R2
          (fun c hc => (List.mem_filter.1 hc).1) (prunedelta_refl st) h
    exact prunedelta_restore st st2 R2 hpd
  · intro fuel b st2 R2 h
    exact prunedelta_restore st st2 R2
      (gace_prunedelta csp (gac_reenqueue csp) st hwf fuel (gacInitQueue csp newVar) st []
        b st2 R2 (prunedelta_refl st) h)

/-- Witness for C3 on the spec's forward-checking scenario: undoing the single
recorded prune restores the pre-call state exactly. -/
theorem c3_witness :
    StateWF neState ∧ ScopeBound neCSP neState ∧
    restoreValues [⟨neDom, some 1⟩, ⟨[(1,false),(2,true)], none⟩] [(1, 1)] = neState :=
  ⟨by decide, by decide,
    (c3_undo_exactness neCSP (some 0) neState (by decide)).1 true
      [⟨neDom, some 1⟩, ⟨[(1,false),(2,true)], none⟩] [(1, 1)] (by decide) (by decide)⟩

/-- C6: the only persistent mutation a propagation call makes is the reported
pruning.  `prop_FC` reverts every probing assignment (all assignment slots are
exactly as before the call) and both propagators change the domains precisely
by clearing the recorded pairs' flags (`PruneDelta`); the GAC worklist is a
value created at call start inside `prop_GAC`, and the embedded
`get_all_cons`/`get_cons_with_var` are pure functions of the CSP value, which
the call never rebuilds. -/
theorem c6_only_pruning_persists (csp : CSP) (newVar : Option Nat) (st : State)
    (hwf : StateWF st) :
    (∀ b st2 R2, ScopeBound csp st → prop_FC csp newVar st = (b, st2, R2) →
      (∀ w, getAssignedValue st2 w = getAssignedValue st w) ∧ PruneDelta st st2 R2) ∧
    (∀ fuel b st2 R2, prop_GAC csp newVar st fuel = some (b, st2, R2) →
      (∀ w, getAssignedValue st2 w = getAssignedValue st w) ∧ PruneDelta st st2 R2) := by
  constructor
  · intro b st2 R2 hsb h
    have hpd : PruneDelta st st2 R2 := by
      cases newVar with
      | none =>
        exact prop_FC_loop_prunedelta csp st hwf hsb (getAllCons csp) st [] b st2 R2
          (fun c hc => hc) (prunedelta_refl st) h
      | some v =>
        exact prop_FC_loop_prunedelta csp st hwf hsb (getConsWithVar csp v) st [] b st2 R2
          (fun c hc => (List.mem_filter.1 hc).1) (prunedelta_refl st) h
    exact ⟨fun w => hpd.2.1 w, hpd⟩
  · intro fuel b st2 R2 h
    have hpd := gace_prunedelta csp (gac_reenqueue csp) st hwf fuel
      (gacInitQueue csp newVar) st [] b st2 R2 (prunedelta_refl st) h
    exact ⟨fun w => hpd.2.1 w, hpd⟩

/-- Witness for C6 on the forward-checking scenario: the probing assignment on
the unassigned variable is reverted and the domain delta is the single
recorded pair. -/
theorem c6_witness :
    StateWF neState ∧ ScopeBound neCSP neState ∧
    ((∀ w, getAssignedValue [⟨neDom, some 1⟩, ⟨[(1,false),(2,true)], none⟩] w =
        getAssignedValue neState w) ∧
      PruneDelta neState [⟨neDom, some 1⟩, ⟨[(1,false),(2,true)], none⟩] [(1, 1)]) :=
  ⟨by decide, by decide,
    (c6_only_pruning_persists neCSP (some 0) neState (by decide)).1 true
      [⟨neDom, some 1⟩, ⟨[(1,false),(2,true)], none⟩] [(1, 1)] (by decide) (by decide)⟩

/-- C4 is violated by the code: on a state in which two assigned variables
jointly violate a fully assigned constraint, `prop_GAC` records the pair
`(0, 1)` twice (the second `prune_value` also acts on a value whose active
flag is already cleared), because an assigned variable's current-domain size
is 1, so the wipeout check never fires for it.  This contradicts the
propagators' own header contract ("NOTE propagator SHOULD NOT prune a value
that has already been pruned! Nor should it prune a value twice",
propagators.py:31-32). -/
theorem c4_gac_double_prune :
    prop_GAC bugCSP (some 1) bugState 6 =
      some (false,
        [⟨[(1,false),(2,true)], some 1⟩, ⟨[(1,false)], some 1⟩,
         ⟨[(1,false),(2,false)], none⟩],
        [(0,1),(1,1),(0,1),(2,1),(2,2)]) ∧
    ¬ ([((0:Nat),(1:Int)),(1,1),(0,1),(2,1),(2,2)]).Nodup ∧
    StateWF bugState := by
  refine ⟨by decide, by decide, by decide⟩

/-! ### The worklist invariant of a terminating true GAC run -/

theorem mem_getConsWithVar (csp : CSP) (w : Nat) (c : Constraint) :
    c ∈ getConsWithVar csp w ↔ c ∈ csp.cons ∧ w ∈ c.scope := by
  rw [getConsWithVar, List.mem_filter, List.elem_iff]

theorem gacd_true (csp : CSP) (R : Nat → List Constraint → List Constraint)
    (hR1 : ∀ v q c, c ∈ q → c ∈ R v q)
    (hR2 : ∀ v q c, c ∈ getConsWithVar csp v → c ∈ R v q)
    (hR3 : ∀ v q c, c ∈ R v q → c ∈ q ∨ c ∈ getConsWithVar csp v)
    (con : Constraint) (v : Nat) :
    ∀ ds (st : State) pr q st1 pr1 q1,
      gacd csp R con v ds st pr q = (true, st1, pr1, q1) →
      ((∀ c ∈ q, c ∈ q1) ∧
       (∀ w, getAssignedValue st1 w = getAssignedValue st w) ∧
       (∀ w x, x ∈ curDomain st1 w → x ∈ curDomain st w) ∧
       (∀ w, curDomain st1 w ≠ curDomain st w → ∀ c ∈ getConsWithVar csp w, c ∈ q1) ∧
       (∀ w, curDomain st1 w = [] → curDomain st w = []) ∧
       (∀ c ∈ q1, c ∈ q ∨ c ∈ csp.cons) ∧
       (pr1 = pr → st1 = st ∧ q1 = q ∧ ∀ d ∈ ds, con.hasSupport st v d = true) ∧
       (con ∈ csp.cons → v ∈ con.scope → pr1 ≠ pr → con ∈ q1) ∧
       (∃ suf, pr1 = pr ++ suf)) := by
  intro ds
  induction ds with
  | nil =>
    intro st pr q st1 pr1 q1 h
    rw [gacd] at h
    cases h
    refine ⟨fun c hc => hc, fun w => rfl, fun w x hx => hx, ?_, fun w h => h,
      fun c hc => Or.inl hc, fun _ => ⟨rfl, rfl, fun d hd => absurd hd (List.not_mem_nil d)⟩,
      fun _ _ hne => absurd rfl hne, ⟨[], by simp⟩⟩
    intro w hne
    exact absurd rfl hne
  | cons d ds ih =>
    intro st pr q st1 pr1 q1 h
    rw [gacd] at h
    by_cases hs : con.hasSupport st v d = true
    · rw [if_pos hs] at h
      obtain ⟨ha, hb, hc, hd', he, hk, hf, hi, hsuf⟩ := ih st pr q st1 pr1 q1 h
      refine ⟨ha, hb, hc, hd', he, hk, ?_, hi, hsuf⟩
      intro hpr
      obtain ⟨h1, h2, h3⟩ := hf hpr
      refine ⟨h1, h2, ?_⟩
      intro e he'
      rcases List.mem_cons.1 he' with rfl | he''
      · exact hs
      · exact h3 e he''
    · rw [if_neg hs] at h
      by_cases hw : curDomainSize (pruneValue st v d) v = 0
      · rw [if_pos hw] at h
        exact absurd h (by simp)
      · rw [if_neg hw] at h
        obtain ⟨ha, hb, hc, hd', he, hk, hf, hi, hsuf⟩ :=
          ih (pruneValue st v d) (pr ++ [(v, d)]) (R v q) st1 pr1 q1 h
        have hqsub : ∀ c ∈ q, c ∈ q1 := fun c hcq => ha c (hR1 v q c hcq)
        have hprne : pr1 ≠ pr := by
          obtain ⟨suf, hsuf'⟩ := hsuf
          rw [hsuf', List.append_assoc]
          intro heq
          have := congrArg List.length heq
          simp at this
        refine ⟨hqsub, ?_, ?_, ?_, ?_, ?_, ?_, ?_, ?_⟩
        · intro w
          rw [hb w, assigned_pruneValue]
        · intro w x hx
          exact mem_curDomain_pruneValue st v w d x (hc w x hx)
        · intro w hne c hcw
          by_cases hcd : curDomain (pruneValue st v d) w = curDomain st w
          · exact hd' w (by rw [hcd]; exact hne) c hcw
          · have hwv : w = v := by
              by_contra hwv
              exact hcd (curDomain_pruneValue_ne st v w d hwv)
            subst hwv
            exact ha c (hR2 w q c hcw)
        · intro w hnil
          have h2 := he w hnil
          by_cases hwv : w = v
          · subst hwv
            exfalso
            apply hw
            rw [curDomainSize, h2]
            rfl
          · rw [curDomain_pruneValue_ne st v w d hwv] at h2
            exact h2
        · intro c hcq1
          rcases hk c hcq1 with hcR | hcc
          · rcases hR3 v q c hcR with hcq | hcv
            · exact Or.inl hcq
            · exact Or.inr ((mem_getConsWithVar csp v c).1 hcv).1
          · exact Or.inr hcc
        · intro hpr
          exact absurd hpr hprne
        · intro hcon hv _
          exact ha con (hR2 v q con ((mem_getConsWithVar csp v con).2 ⟨hcon, hv⟩))
        · obtain ⟨suf, hsuf'⟩ := hsuf
          exact ⟨(v, d) :: suf, by rw [hsuf', List.append_assoc]; rfl⟩

theorem gacs_true (csp : CSP) (R : Nat → List Constraint → List Constraint)
    (hR1 : ∀ v q c, c ∈ q → c ∈ R v q)
    (hR2 : ∀ v q c, c ∈ getConsWithVar csp v → c ∈ R v q)
    (hR3 : ∀ v q c, c ∈ R v q → c ∈ q ∨ c ∈ getConsWithVar csp v)
    (con : Constraint) :
    ∀ vs (st : State) pr q st1 pr1 q1,
      con ∈ csp.cons → (∀ v ∈ vs, v ∈ con.scope) →
      gacs csp R con vs st pr q = (true, st1, pr1, q1) →
      ((∀ c ∈ q, c ∈ q1) ∧
       (∀ w, getAssignedValue st1 w = getAssignedValue st w) ∧
       (∀ w x, x ∈ curDomain st1 w → x ∈ curDomain st w) ∧
       (∀ w, curDomain st1 w ≠ curDomain st w → ∀ c ∈ getConsWithVar csp w, c ∈ q1) ∧
       (∀ w, curDomain st1 w = [] → curDomain st w = []) ∧
       (∀ c ∈ q1, c ∈ q ∨ c ∈ csp.cons) ∧
       (con ∉ q1 → st1 = st ∧
         ∀ v ∈ vs, ∀ d ∈ curDomain st v, con.hasSupport st v d = true)) := by
  intro vs
  induction vs with
  | nil =>
    intro st pr q st1 pr1 q1 hcon hvs h
    rw [gacs] at h
    cases h
    exact ⟨fun c hc => hc, fun w => rfl, fun w x hx => hx,
      fun w hne => absurd rfl hne, fun w hnil => hnil, fun c hc => Or.inl hc,
      fun _ => ⟨rfl, fun v hv => absurd hv (List.not_mem_nil v)⟩⟩
  | cons v vs ih =>
    intro st pr q st1 pr1 q1 hcon hvs h
    rw [gacs] at h
    rcases hd : gacd csp R con v (curDomain st v) st pr q with ⟨okd, std, prd, qd⟩
    rw [hd] at h
    cases okd with
    | false => exact absurd h (by simp)
    | true =>
      simp only [if_pos rfl] at h
      obtain ⟨p1a, p1b, p1c, p1d, p1e, p1k, p1f, p1i, p1suf⟩ :=
        gacd_true csp R hR1 hR2 hR3 con v (curDomain st v) st pr q std prd qd hd
      obtain ⟨p2a, p2b, p2c, p2d, p2e, p2k, p2j⟩ :=
        ih std prd qd st1 pr1 q1 hcon (fun v' hv' => hvs v' (List.mem_cons_of_mem _ hv')) h
      refine ⟨?_, ?_, ?_, ?_, ?_, ?_, ?_⟩
      · intro c hc
        exact p2a c (p1a c hc)
      · intro w
        rw [p2b w, p1b w]
      · intro w x hx
        exact p1c w x (p2c w x hx)
      · intro w hne c hcw
        by_cases hcd : curDomain std w = curDomain st w
        · exact p2d w (by rw [hcd]; exact hne) c hcw
        · exact p2a c (p1d w hcd c hcw)
      · intro w hnil
        exact p1e w (p2e w hnil)
      · intro c hc
        rcases p2k c hc with hcd | hcc
        · rcases p1k c hcd with hcq | hcc'
          · exact Or.inl hcq
          · exact Or.inr hcc'
        · exact Or.inr hcc
      · intro hnq1
        have hnqd : con ∉ qd := fun hmem => hnq1 (p2a con hmem)
        have hpr : prd = pr := by
          by_contra hne
          exact hnqd (p1i hcon (hvs v (List.mem_cons_self _ _)) hne)
        obtain ⟨hstd, hqd, hchecks⟩ := p1f hpr
        obtain ⟨hst1, hchecks2⟩ := p2j hnq1
        subst hstd
        refine ⟨hst1, ?_⟩
        intro v' hv' e he'
        rcases List.mem_cons.1 hv' with rfl | hv''
        · exact hchecks e he'
        · exact hchecks2 v' hv'' e he'

theorem gace_inv (csp : CSP) (R : Nat → List Constraint → List Constraint)
    (hR1 : ∀ v q c, c ∈ q → c ∈ R v q)
    (hR2 : ∀ v q c, c ∈ getConsWithVar csp v → c ∈ R v q)
    (hR3 : ∀ v q c, c ∈ R v q → c ∈ q ∨ c ∈ getConsWithVar csp v)
    (seed : List Constraint) (st0 : State) :
    ∀ fuel q (st : State) pr st' pr',
      gace csp R fuel q st pr = some (true, st', pr') →
      (∀ c ∈ q, c ∈ csp.cons) →
      (∀ w x, x ∈ curDomain st w → x ∈ curDomain st0 w) →
      (∀ w, getAssignedValue st w = getAssignedValue st0 w) →
      (∀ w, curDomain st w = [] → curDomain st0 w = []) →
      (∀ c ∈ csp.cons, c ∉ q →
        gacConsistent st c ∨ (c ∉ seed ∧ ∀ w ∈ c.scope, curDomain st w = curDomain st0 w)) →
      ((∀ w x, x ∈ curDomain st' w → x ∈ curDomain st0 w) ∧
       (∀ w, getAssignedValue st' w = getAssignedValue st0 w) ∧
       (∀ w, curDomain st' w = [] → curDomain st0 w = []) ∧
       (∀ c ∈ csp.cons, gacFinalFact seed st0 st' c)) := by
  intro fuel
  induction fuel with
  | zero =>
    intro q st pr st' pr' h hq hV2 hV3 hV4 hV5
    cases q with
    | nil =>
      rw [gace] at h
      cases h
      exact ⟨hV2, hV3, hV4, fun c hc => hV5 c hc (List.not_mem_nil c)⟩
    | cons con q => exact absurd h (by rw [gace]; simp)
  | succ fuel ih =>
    intro q st pr st' pr' h hq hV2 hV3 hV4 hV5
    cases q with
    | nil =>
      rw [gace] at h
      cases h
      exact ⟨hV2, hV3, hV4, fun c hc => hV5 c hc (List.not_mem_nil c)⟩
    | cons con q =>
      rw [gace] at h
      rcases hs : gacs csp R con con.scope st pr q with ⟨oks, st1, pr1, q1⟩
      rw [hs] at h
      cases oks with
      | false => exact absurd h (by simp)
      | true =>
        simp only [if_pos rfl] at h
        have hconc : con ∈ csp.cons := hq con (List.mem_cons_self _ _)
        obtain ⟨pa, pb, pc, pd, pe, pk, pj⟩ :=
          gacs_true csp R hR1 hR2 hR3 con con.scope st pr q st1 pr1 q1 hconc
            (fun v hv => hv) hs
        apply ih q1 st1 pr1 st' pr' h
        · intro c hc
          rcases pk c hc with hcq | hcc
          · exact hq c (List.mem_cons_of_mem _ hcq)
          · exact hcc
        · intro w x hx
          exact hV2 w x (pc w x hx)
        · intro w
          rw [pb w, hV3 w]
        · intro w hnil
          exact hV4 w (pe w hnil)
        · intro c hcc hcq1
          by_cases hceq : c = con
          · subst hceq
            obtain ⟨hst1, hchecks⟩ := pj hcq1
            subst hst1
            exact Or.inl hchecks
          · have hcnq : c ∉ q := fun hmem => hcq1 (pa c hmem)
            have hcnconsq : c ∉ con :: q := by
              rw [List.mem_cons]
              rintro (h' | h')
              · exact hceq h'
              · exact hcnq h'
            have hviews : ∀ w ∈ c.scope, curDomain st1 w = curDomain st w := by
              intro w hw
              by_contra hne
              exact hcq1 (pd w hne c ((mem_getConsWithVar csp w c).2 ⟨hcc, hw⟩))
            rcases hV5 c hcc hcnconsq with hcons | ⟨hnseed, heq⟩
            · left
              intro v hv e he
              rw [hviews v hv] at he
              rw [hasSupport_congr c st1 st v e hviews]
              exact hcons v hv e he
            · right
              exact ⟨hnseed, fun w hw => (hviews w hw).trans (heq w hw)⟩

/-! ### The two re-enqueue policies satisfy the worklist axioms -/

theorem foldl_front_keep :
    ∀ (l acc : List Constraint) (c : Constraint), c ∈ acc →
      c ∈ l.foldl (fun acc r => if r ∈ acc then acc else r :: acc) acc := by
  intro l
  induction l with
  | nil => intro acc c hc; exact hc
  | cons r l ih =>
    intro acc c hc
    rw [List.foldl_cons]
    apply ih
    by_cases hr : r ∈ acc
    · rw [if_pos hr]; exact hc
    · rw [if_neg hr]; exact List.mem_cons_of_mem _ hc

theorem foldl_front_adds :
    ∀ (l acc : List Constraint) (c : Constraint), c ∈ l →
      c ∈ l.foldl (fun acc r => if r ∈ acc then acc else r :: acc) acc := by
  intro l
  induction l with
  | nil => intro acc c hc; exact absurd hc (List.not_mem_nil c)
  | cons r l ih =>
    intro acc c hc
    rw [List.foldl_cons]
    rcases List.mem_cons.1 hc with rfl | hc'
    · apply foldl_front_keep
      by_cases hr : c ∈ acc
      · rw [if_pos hr]; exact hr
      · rw [if_neg hr]; exact List.mem_cons_self _ _
    · exact ih _ c hc'

theorem foldl_front_from :
    ∀ (l acc : List Constraint) (c : Constraint),
      c ∈ l.foldl (fun acc r => if r ∈ acc then acc else r :: acc) acc →
      c ∈ acc ∨ c ∈ l := by
  intro l
  induction l with
  | nil => intro acc c hc; exact Or.inl hc
  | cons r l ih =>
    intro acc c hc
    rw [List.foldl_cons] at hc
    rcases ih _ c hc with hacc | hl
    · by_cases hr : r ∈ acc
      · rw [if_pos hr] at hacc
        exact Or.inl hacc
      · rw [if_neg hr] at hacc
        rcases List.mem_cons.1 hacc with rfl | hacc'
        · exact Or.inr (List.mem_cons_self _ _)
        · exact Or.inl hacc'
    · exact Or.inr (List.mem_cons_of_mem _ hl)

theorem foldl_back_keep :
    ∀ (l acc : List Constraint) (c : Constraint), c ∈ acc →
      c ∈ l.foldl (fun acc r => if r ∈ acc then acc else acc ++ [r]) acc := by
  intro l
  induction l with
  | nil => intro acc c hc; exact hc
  | cons r l ih =>
    intro acc c hc
    rw [List.foldl_cons]
    apply ih
    by_cases hr : r ∈ acc
    · rw [if_pos hr]; exact hc
    · rw [if_neg hr]; exact List.mem_append_left _ hc

theorem foldl_back_adds :
    ∀ (l acc : List Constraint) (c : Constraint), c ∈ l →
      c ∈ l.foldl (fun acc r => if r ∈ acc then acc else acc ++ [r]) acc := by
  intro l
  induction l with
  | nil => intro acc c hc; exact absurd hc (List.not_mem_nil c)
  | cons r l ih =>
    intro acc c hc
    rw [List.foldl_cons]
    rcases List.mem_cons.1 hc with rfl | hc'
    · apply foldl_back_keep
      by_cases hr : c ∈ acc
      · rw [if_pos hr]; exact hr
      · rw [if_neg hr]; exact List.mem_append_right _ (List.mem_singleton.2 rfl)
    · exact ih _ c hc'

theorem foldl_back_from :
    ∀ (l acc : List Constraint) (c : Constraint),
      c ∈ l.foldl (fun acc r => if r ∈ acc then acc else acc ++ [r]) acc →
      c ∈ acc ∨ c ∈ l := by
  intro l
  induction l with
  | nil => intro acc c hc; exact Or.inl hc
  | cons r l ih =>
    intro acc c hc
    rw [List.foldl_cons] at hc
    rcases ih _ c hc with hacc | hl
    · by_cases hr : r ∈ acc
      · rw [if_pos hr] at hacc
        exact Or.inl hacc
      · rw [if_neg hr] at hacc
        rcases List.mem_append.1 hacc with hacc' | hsing
        · exact Or.inl hacc'
        · rw [List.mem_singleton.1 hsing]
          exact Or.inr (List.mem_cons_self r l)
    · exact Or.inr (List.mem_cons_of_mem _ hl)

theorem front_hR1 (csp : CSP) : ∀ v q c, c ∈ q → c ∈ gac_reenqueue csp v q :=
  fun v q c hc => foldl_front_keep (getConsWithVar csp v) q c hc

theorem front_hR2 (csp : CSP) :
    ∀ v q c, c ∈ getConsWithVar csp v → c ∈ gac_reenqueue csp v q :=
  fun v q c hc => foldl_front_adds (getConsWithVar csp v) q c hc

theorem front_hR3 (csp : CSP) :
    ∀ v q c, c ∈ gac_reenqueue csp v q → c ∈ q ∨ c ∈ getConsWithVar csp v :=
  fun v q c hc => foldl_front_from (getConsWithVar csp v) q c hc

theorem back_hR1 (csp : CSP) : ∀ v q c, c ∈ q → c ∈ gac_reenqueue_back csp v q :=
  fun v q c hc => foldl_back_keep (getConsWithVar csp v) q c hc

theorem back_hR2 (csp : CSP) :
    ∀ v q c, c ∈ getConsWithVar csp v → c ∈ gac_reenqueue_back csp v q :=
  fun v q c hc => foldl_back_adds (getConsWithVar csp v) q c hc

theorem back_hR3 (csp : CSP) :
    ∀ v q c, c ∈ gac_reenqueue_back csp v q → c ∈ q ∨ c ∈ getConsWithVar csp v :=
  fun v q c hc => foldl_back_from (getConsWithVar csp v) q c hc

theorem gacInitQueue_sub (csp : CSP) (newVar : Option Nat) :
    ∀ c ∈ gacInitQueue csp newVar, c ∈ csp.cons := by
  cases newVar with
  | none => exact fun c hc => hc
  | some v => exact fun c hc => (List.mem_filter.1 hc).1

/-- C1: after `prop_GAC` returns true — whether seeded with all constraints
(`newVar` unset) or with the constraints incident to `newVar` on a state in
which every non-seeded constraint is already arc consistent — every value
remaining in any variable's current domain has support under every constraint
incident to that variable. -/
theorem c1_gac_fixed_point (csp : CSP) (newVar : Option Nat) (st : State)
    (fuel : Nat) (st' : State) (pr : List (Nat × Int))
    (hres : prop_GAC csp newVar st fuel = some (true, st', pr))
    (H0 : ∀ c ∈ csp.cons, c ∉ gacInitQueue csp newVar → gacConsistent st c) :
    ∀ c ∈ csp.cons, ∀ v ∈ c.scope, ∀ d ∈ curDomain st' v,
      c.hasSupport st' v d = true := by
  have hfin := gace_inv csp (gac_reenqueue csp) (front_hR1 csp) (front_hR2 csp)
    (front_hR3 csp) (gacInitQueue csp newVar) st fuel (gacInitQueue csp newVar)
    st [] st' pr hres (gacInitQueue_sub csp newVar)
    (fun w x hx => hx) (fun w => rfl) (fun w h => h)
    (fun c hcc hcq => Or.inr ⟨hcq, fun w hw => rfl⟩)
  intro c hcc v hv d hd
  rcases hfin.2.2.2 c hcc with hcons | ⟨hnseed, heq⟩
  · exact hcons v hv d hd
  · have hcons0 := H0 c hcc hnseed
    rw [heq v hv] at hd
    rw [hasSupport_congr c st' st v d heq]
    exact hcons0 v hv d hd

/-- Witness for C1 on the spec's all-different scenario: after `X1 := 1`,
`prop_GAC` prunes 1 from the other two variables and the final state is a GAC
fixed point. -/
theorem c1_witness :
    prop_GAC adCSP (some 0) adState 10 = some (true, adFinal, [(1,1),(2,1)]) ∧
    (∀ c ∈ adCSP.cons, ∀ v ∈ c.scope, ∀ d ∈ curDomain adFinal v,
      c.hasSupport adFinal v d = true) :=
  ⟨by decide,
    c1_gac_fixed_point adCSP (some 0) adState 10 adFinal [(1,1),(2,1)]
      (by decide) (by decide)⟩

/-! ### The second GAC run never prunes the first run's surviving values -/

theorem gacTouched_mono (st0 st st' : State) (c : Constraint)
    (hsh : ∀ w x, x ∈ curDomain st' w → x ∈ curDomain st w) :
    gacTouched st0 st c → gacTouched st0 st' c := by
  rintro ⟨w, hw, e, he0, hest⟩
  exact ⟨w, hw, e, he0, fun he' => hest (hsh w e he')⟩

theorem mem_curDomain_assigned_eq (st : State) (v : Nat) (a d : Int)
    (ha : getAssignedValue st v = some a) (hd : d ∈ curDomain st v) : d = a := by
  rw [curDomain_assigned st v a ha] at hd
  exact List.mem_singleton.1 hd

theorem gac_keep_prune (csp : CSP) (seed : List Constraint) (st0 stA : State)
    (hA1 : ∀ c ∈ csp.cons, gacFinalFact seed st0 stA c)
    (st : State) (con : Constraint) (v : Nat) (d : Int)
    (hconc : con ∈ csp.cons)
    (hcont : con ∈ seed ∨ gacTouched st0 st con)
    (hI1 : ∀ w x, x ∈ curDomain stA w → x ∈ curDomain st w)
    (hv : v ∈ con.scope)
    (hns : ¬ con.hasSupport st v d = true) :
    d ∉ curDomain stA v := by
  intro hdA
  have hsupA : ¬ con.hasSupport stA v d = true := fun hsA =>
    hns (hasSupport_mono con stA st v d (fun w _ x hx => hI1 w x hx) hsA)
  rcases hA1 con hconc with hcons | ⟨hnseed, heq⟩
  · exact hsupA (hcons v hv d hdA)
  · rcases hcont with hseed | ⟨w, hw, e, he0, hest⟩
    · exact hnseed hseed
    · exact hest (hI1 w e ((heq w hw).symm ▸ he0))

theorem gacd_keep (csp : CSP) (R : Nat → List Constraint → List Constraint)
    (hR1 : ∀ v q c, c ∈ q → c ∈ R v q)
    (hR2 : ∀ v q c, c ∈ getConsWithVar csp v → c ∈ R v q)
    (hR3 : ∀ v q c, c ∈ R v q → c ∈ q ∨ c ∈ getConsWithVar csp v)
    (seed : List Constraint) (st0 stA : State)
    (hA1 : ∀ c ∈ csp.cons, gacFinalFact seed st0 stA c)
    (hA2 : ∀ w, getAssignedValue stA w = getAssignedValue st0 w)
    (hA4 : ∀ w, curDomain stA w = [] → curDomain st0 w = [])
    (con : Constraint) (v : Nat)
    (hconc : con ∈ csp.cons) (hv : v ∈ con.scope) :
    ∀ ds (st : State) pr q ok st1 pr1 q1,
      gacd csp R con v ds st pr q = (ok, st1, pr1, q1) →
      (∀ w x, x ∈ curDomain stA w → x ∈ curDomain st w) →
      (∀ w, getAssignedValue st w = getAssignedValue st0 w) →
      (∀ w x, x ∈ curDomain st w → x ∈ curDomain st0 w) →
      (∀ c ∈ q, c ∈ csp.cons ∧ (c ∈ seed ∨ gacTouched st0 st c)) →
      (con ∈ seed ∨ gacTouched st0 st con) →
      (∀ d' ∈ ds, d' ∈ curDomain st0 v) →
      (∀ a, getAssignedValue st v = some a → ∀ d' ∈ ds, d' = a) →
      (ok = true ∧
       (∀ w x, x ∈ curDomain stA w → x ∈ curDomain st1 w) ∧
       (∀ w, getAssignedValue st1 w = getAssignedValue st0 w) ∧
       (∀ w x, x ∈ curDomain st1 w → x ∈ curDomain st0 w) ∧
       (∀ c ∈ q1, c ∈ csp.cons ∧ (c ∈ seed ∨ gacTouched st0 st1 c)) ∧
       (con ∈ seed ∨ gacTouched st0 st1 con) ∧
       (∀ w x, x ∈ curDomain st1 w → x ∈ curDomain st w)) := by
  intro ds
  induction ds with
  | nil =>
    intro st pr q ok st1 pr1 q1 h hI1 hI3 hI4 hq hcont _ _
    rw [gacd] at h
    cases h
    exact ⟨rfl, hI1, hI3, hI4, hq, hcont, fun w x hx => hx⟩
  | cons d ds ih =>
    intro st pr q ok st1 pr1 q1 h hI1 hI3 hI4 hq hcont hds0 hdsa
    rw [gacd] at h
    by_cases hs : con.hasSupport st v d = true
    · rw [if_pos hs] at h
      exact ih st pr q ok st1 pr1 q1 h hI1 hI3 hI4 hq hcont
        (fun d' hd' => hds0 d' (List.mem_cons_of_mem _ hd'))
        (fun a ha d' hd' => hdsa a ha d' (List.mem_cons_of_mem _ hd'))
    · rw [if_neg hs] at h
      have hdnA : d ∉ curDomain stA v :=
        gac_keep_prune csp seed st0 stA hA1 st con v d hconc hcont hI1 hv hs
      have hvslot : getAssignedValue st v = none := by
        cases hslot : getAssignedValue st v with
        | none => rfl
        | some a =>
          exfalso
          have hda : d = a := hdsa a hslot d (List.mem_cons_self _ _)
          have hslotA : getAssignedValue stA v = some a := by
            rw [hA2 v, ← hI3 v]; exact hslot
          exact hdnA (by
            rw [curDomain_assigned stA v a hslotA, hda]
            exact List.mem_singleton.2 rfl)
      have hshrink : ∀ w x, x ∈ curDomain (pruneValue st v d) w → x ∈ curDomain st w :=
        fun w x hx => mem_curDomain_pruneValue st v w d x hx
      have hI1' : ∀ w x, x ∈ curDomain stA w → x ∈ curDomain (pruneValue st v d) w := by
        intro w x hx
        by_cases hwv : w = v
        · subst hwv
          rw [mem_curDomain_pruneValue_unassigned st w d x hvslot]
          exact ⟨hI1 w x hx, fun hxd => hdnA (hxd ▸ hx)⟩
        · rw [curDomain_pruneValue_ne st v w d hwv]
          exact hI1 w x hx
      have hnw : ¬ curDomainSize (pruneValue st v d) v = 0 := by
        intro hz
        have hnil : curDomain (pruneValue st v d) v = [] := List.length_eq_zero.1 hz
        have hAnil : curDomain stA v = [] := by
          cases hAv : curDomain stA v with
          | nil => rfl
          | cons x xs =>
            exfalso
            have : x ∈ curDomain (pruneValue st v d) v :=
              hI1' v x (by rw [hAv]; exact List.mem_cons_self _ _)
            rw [hnil] at this
            exact List.not_mem_nil x this
        have h0nil : curDomain st0 v = [] := hA4 v hAnil
        have := hds0 d (List.mem_cons_self _ _)
        rw [h0nil] at this
        exact List.not_mem_nil d this
      rw [if_neg hnw] at h
      have hI3' : ∀ w, getAssignedValue (pruneValue st v d) w = getAssignedValue st0 w := by
        intro w
        rw [assigned_pruneValue]
        exact hI3 w
      have hI4' : ∀ w x, x ∈ curDomain (pruneValue st v d) w → x ∈ curDomain st0 w :=
        fun w x hx => hI4 w x (hshrink w x hx)
      have hq' : ∀ c ∈ R v q, c ∈ csp.cons ∧
          (c ∈ seed ∨ gacTouched st0 (pruneValue st v d) c) := by
        intro c hc
        rcases hR3 v q c hc with hcq | hcv
        · obtain ⟨hc1, hc2⟩ := hq c hcq
          refine ⟨hc1, ?_⟩
          rcases hc2 with hc2 | hc2
          · exact Or.inl hc2
          · exact Or.inr (gacTouched_mono st0 st _ c hshrink hc2)
        · obtain ⟨hc1, hc2⟩ := (mem_getConsWithVar csp v c).1 hcv
          refine ⟨hc1, Or.inr ?_⟩
          refine ⟨v, hc2, d, hds0 d (List.mem_cons_self _ _), ?_⟩
          rw [mem_curDomain_pruneValue_unassigned st v d d hvslot]
          rintro ⟨_, hdd⟩
          exact hdd rfl
      have hcont' : con ∈ seed ∨ gacTouched st0 (pruneValue st v d) con := by
        rcases hcont with hc | hc
        · exact Or.inl hc
        · exact Or.inr (gacTouched_mono st0 st _ con hshrink hc)
      have hds0' : ∀ d' ∈ ds, d' ∈ curDomain st0 v :=
        fun d' hd' => hds0 d' (List.mem_cons_of_mem _ hd')
      have hdsa' : ∀ a, getAssignedValue (pruneValue st v d) v = some a → ∀ d' ∈ ds, d' = a := by
        intro a ha
        rw [assigned_pruneValue] at ha
        rw [hvslot] at ha
        cases ha
      obtain ⟨ho, h1, h2, h3, h4, h5, h6⟩ :=
        ih (pruneValue st v d) (pr ++ [(v, d)]) (R v q) ok st1 pr1 q1 h
          hI1' hI3' hI4' hq' hcont' hds0' hdsa'
      exact ⟨ho, h1, h2, h3, h4, h5, fun w x hx => hshrink w x (h6 w x hx)⟩

theorem gacs_keep (csp : CSP) (R : Nat → List Constraint → List Constraint)
    (hR1 : ∀ v q c, c ∈ q → c ∈ R v q)
    (hR2 : ∀ v q c, c ∈ getConsWithVar csp v → c ∈ R v q)
    (hR3 : ∀ v q c, c ∈ R v q → c ∈ q ∨ c ∈ getConsWithVar csp v)
    (seed : List Constraint) (st0 stA : State)
    (hA1 : ∀ c ∈ csp.cons, gacFinalFact seed st0 stA c)
    (hA2 : ∀ w, getAssignedValue stA w = getAssignedValue st0 w)
    (hA4 : ∀ w, curDomain stA w = [] → curDomain st0 w = [])
    (con : Constraint) (hconc : con ∈ csp.cons) :
    ∀ vs (st : State) pr q ok st1 pr1 q1,
      (∀ v ∈ vs, v ∈ con.scope) →
      gacs csp R con vs st pr q = (ok, st1, pr1, q1) →
      (∀ w x, x ∈ curDomain stA w → x ∈ curDomain st w) →
      (∀ w, getAssignedValue st w = getAssignedValue st0 w) →
      (∀ w x, x ∈ curDomain st w → x ∈ curDomain st0 w) →
      (∀ c ∈ q, c ∈ csp.cons ∧ (c ∈ seed ∨ gacTouched st0 st c)) →
      (con ∈ seed ∨ gacTouched st0 st con) →
      (ok = true ∧
       (∀ w x, x ∈ curDomain stA w → x ∈ curDomain st1 w) ∧
       (∀ w, getAssignedValue st1 w = getAssignedValue st0 w) ∧
       (∀ w x, x ∈ curDomain st1 w → x ∈ curDomain st0 w) ∧
       (∀ c ∈ q1, c ∈ csp.cons ∧ (c ∈ seed ∨ gacTouched st0 st1 c)) ∧
       (con ∈ seed ∨ gacTouched st0 st1 con) ∧
       (∀ w x, x ∈ curDomain st1 w → x ∈ curDomain st w)) := by
  intro vs
  induction vs with
  | nil =>
    intro st pr q ok st1 pr1 q1 _ h hI1 hI3 hI4 hq hcont
    rw [gacs] at h
    cases h
    exact ⟨rfl, hI1, hI3, hI4, hq, hcont, fun w x hx => hx⟩
  | cons v vs ih =>
    intro st pr q ok st1 pr1 q1 hvs h hI1 hI3 hI4 hq hcont
    rw [gacs] at h
    rcases hd : gacd csp R con v (curDomain st v) st pr q with ⟨okd, std, prd, qd⟩
    rw [hd] at h
    obtain ⟨ho, k1, k2, k3, k4, k5, k6⟩ :=
      gacd_keep csp R hR1 hR2 hR3 seed st0 stA hA1 hA2 hA4 con v hconc
        (hvs v (List.mem_cons_self _ _)) (curDomain st v) st pr q okd std prd qd hd
        hI1 hI3 hI4 hq hcont (fun d' hd' => hI4 v d' hd')
        (fun a ha d' hd' => mem_curDomain_assigned_eq st v a d' ha hd')
    subst ho
    simp only [if_pos rfl] at h
    obtain ⟨ho', m1, m2, m3, m4, m5, m6⟩ :=
      ih std prd qd ok st1 pr1 q1 (fun v' hv' => hvs v' (List.mem_cons_of_mem _ hv'))
        h k1 k2 k3 k4 k5
    exact ⟨ho', m1, m2, m3, m4, m5, fun w x hx => k6 w x (m6 w x hx)⟩

theorem gace_keep (csp : CSP) (R : Nat → List Constraint → List Constraint)
    (hR1 : ∀ v q c, c ∈ q → c ∈ R v q)
    (hR2 : ∀ v q c, c ∈ getConsWithVar csp v → c ∈ R v q)
    (hR3 : ∀ v q c, c ∈ R v q → c ∈ q ∨ c ∈ getConsWithVar csp v)
    (seed : List Constraint) (st0 stA : State)
    (hA1 : ∀ c ∈ csp.cons, gacFinalFact seed st0 stA c)
    (hA2 : ∀ w, getAssignedValue stA w = getAssignedValue st0 w)
    (hA4 : ∀ w, curDomain stA w = [] → curDomain st0 w = []) :
    ∀ fuel q (st : State) pr b st' pr',
      gace csp R fuel q st pr = some (b, st', pr') →
      (∀ w x, x ∈ curDomain stA w → x ∈ curDomain st w) →
      (∀ w, getAssignedValue st w = getAssignedValue st0 w) →
      (∀ w x, x ∈ curDomain st w → x ∈ curDomain st0 w) →
      (∀ c ∈ q, c ∈ csp.cons ∧ (c ∈ seed ∨ gacTouched st0 st c)) →
      (b = true ∧ ∀ w x, x ∈ curDomain stA w → x ∈ curDomain st' w) := by
  intro fuel
  induction fuel with
  | zero =>
    intro q st pr b st' pr' h hI1 hI3 hI4 hq
    cases q with
    | nil =>
      rw [gace] at h
      cases h
      exact ⟨rfl, hI1⟩
    | cons con q => exact absurd h (by rw [gace]; simp)
  | succ fuel ih =>
    intro q st pr b st' pr' h hI1 hI3 hI4 hq
    cases q with
    | nil =>
      rw [gace] at h
      cases h
      exact ⟨rfl, hI1⟩
    | cons con q =>
      rw [gace] at h
      rcases hs : gacs csp R con con.scope st pr q with ⟨oks, st1, pr1, q1⟩
      rw [hs] at h
      obtain ⟨hconc, hcont⟩ := hq con (List.mem_cons_self _ _)
      obtain ⟨ho, k1, k2, k3, k4, _, _⟩ :=
        gacs_keep csp R hR1 hR2 hR3 seed st0 stA hA1 hA2 hA4 con hconc con.scope
          st pr q oks st1 pr1 q1 (fun v hv => hv) hs hI1 hI3 hI4
          (fun c hc => hq c (List.mem_cons_of_mem _ hc)) hcont
      subst ho
      simp only [if_pos rfl] at h
      exact ih q1 st1 pr1 b st' pr' h k1 k2 k3 k4

theorem gac_run_dominates (csp : CSP)
    (RA RB : Nat → List Constraint → List Constraint)
    (hRa1 : ∀ v q c, c ∈ q → c ∈ RA v q)
    (hRa2 : ∀ v q c, c ∈ getConsWithVar csp v → c ∈ RA v q)
    (hRa3 : ∀ v q c, c ∈ RA v q → c ∈ q ∨ c ∈ getConsWithVar csp v)
    (hRb1 : ∀ v q c, c ∈ q → c ∈ RB v q)
    (hRb2 : ∀ v q c, c ∈ getConsWithVar csp v → c ∈ RB v q)
    (hRb3 : ∀ v q c, c ∈ RB v q → c ∈ q ∨ c ∈ getConsWithVar csp v)
    (seed : List Constraint) (st : State) (fuelA fuelB : Nat)
    (stA : State) (prA : List (Nat × Int)) (b : Bool) (st2 : State)
    (p2 : List (Nat × Int))
    (hseedsub : ∀ c ∈ seed, c ∈ csp.cons)
    (hA : gace csp RA fuelA seed st [] = some (true, stA, prA))
    (hB : gace csp RB fuelB seed st [] = some (b, st2, p2)) :
    b = true ∧ ∀ w x, x ∈ curDomain stA w → x ∈ curDomain st2 w := by
  obtain ⟨hA3, hA2, hA4, hA1⟩ := gace_inv csp RA hRa1 hRa2 hRa3 seed st fuelA seed
    st [] stA prA hA hseedsub (fun w x hx => hx) (fun w => rfl) (fun w h => h)
    (fun c hcc hcq => Or.inr ⟨hcq, fun w hw => rfl⟩)
  exact gace_keep csp RB hRb1 hRb2 hRb3 seed st stA hA1 hA2 hA4 fuelB seed st []
    b st2 p2 hB hA3 (fun w => rfl) (fun w x hx => hx)
    (fun c hc => ⟨hseedsub c hc, Or.inl hc⟩)

/-- C7: the re-enqueue order does not matter.  For any CSP, state and `newVar`,
if the implemented front-insertion `prop_GAC` and the back-insertion variant
`prop_GAC_back` both terminate (within their fuel), they return the same
consistency verdict, and on a true verdict every variable ends with the same
current domain. -/
theorem c7_reenqueue_order_immaterial (csp : CSP) (newVar : Option Nat)
    (st : State) (fuel1 fuel2 : Nat) (r1 r2 : Bool) (st1 st2 : State)
    (p1 p2 : List (Nat × Int))
    (hf : prop_GAC csp newVar st fuel1 = some (r1, st1, p1))
    (hb : prop_GAC_back csp newVar st fuel2 = some (r2, st2, p2)) :
    r1 = r2 ∧ (r1 = true → ∀ v d, d ∈ curDomain st1 v ↔ d ∈ curDomain st2 v) := by
  rw [prop_GAC] at hf
  rw [prop_GAC_back] at hb
  have hseedsub := gacInitQueue_sub csp newVar
  cases r1 with
  | true =>
    obtain ⟨hb2, hsub12⟩ := gac_run_dominates csp (gac_reenqueue csp)
      (gac_reenqueue_back csp) (front_hR1 csp) (front_hR2 csp) (front_hR3 csp)
      (back_hR1 csp) (back_hR2 csp) (back_hR3 csp) (gacInitQueue csp newVar) st
      fuel1 fuel2 st1 p1 r2 st2 p2 hseedsub hf hb
    subst hb2
    obtain ⟨_, hsub21⟩ := gac_run_dominates csp (gac_reenqueue_back csp)
      (gac_reenqueue csp) (back_hR1 csp) (back_hR2 csp) (back_hR3 csp)
      (front_hR1 csp) (front_hR2 csp) (front_hR3 csp) (gacInitQueue csp newVar) st
      fuel2 fuel1 st2 p2 true st1 p1 hseedsub hb hf
    exact ⟨rfl, fun _ v d => ⟨fun h => hsub12 v d h, fun h => hsub21 v d h⟩⟩
  | false =>
    cases r2 with
    | false => exact ⟨rfl, fun h => absurd h (by simp)⟩
    | true =>
      obtain ⟨hf2, _⟩ := gac_run_dominates csp (gac_reenqueue_back csp)
        (gac_reenqueue csp) (back_hR1 csp) (back_hR2 csp) (back_hR3 csp)
        (front_hR1 csp) (front_hR2 csp) (front_hR3 csp) (gacInitQueue csp newVar) st
        fuel2 fuel1 st2 p2 false st1 p1 hseedsub hb hf
      exact absurd hf2 (by simp)

/-- Witness for C7 on the spec's all-different scenario: both policies return
the same verdict and the same final domains. -/
theorem c7_witness :
    prop_GAC adCSP (some 0) adState 10 = some (true, adFinal, [(1,1),(2,1)]) ∧
    prop_GAC_back adCSP (some 0) adState 10 = some (true, adFinal, [(1,1),(2,1)]) ∧
    (true = true ∧ (true = true →
      ∀ v d, d ∈ curDomain adFinal v ↔ d ∈ curDomain adFinal v)) :=
  ⟨by decide, by decide,
    c7_reenqueue_order_immaterial adCSP (some 0) adState 10 10 true true
      adFinal adFinal [(1,1),(2,1)] [(1,1),(2,1)] (by decide) (by decide)⟩
